import Mathlib

/-!
# Message-set codec and build-seeded randomness of protobuf-go

A shallow embedding of `internal/impl/codec_messageset.go` and of
`internal/detrand/rand.go`, with the properties of their specification.

The packages `internal/encoding/wire`, `internal/encoding/messageset`,
`internal/flags`, `internal/errors` and the extension decoder of `MessageInfo`
are not among the sources: their functions are fields of the structure
`Env`, and every theorem holds for every choice of them unless a hypothesis
says otherwise. The round trip of unknown items depends on what the functions of
`wire` and `messageset` do with bytes: for it these functions are modelled, and
`messageset.env` is the environment made of them. The calls of package `os` that
`binaryHash` makes are the fields of the structure `OS`; the library functions
`sort.Ints`, `fnv.New64` and `binary.LittleEndian.PutUint64` are modelled by what
they compute.
-/

namespace Protobuf

/-- A byte slice (`[]byte`). -/
abbrev Bytes := List (Fin 256)

/-- The Go conversion `int32(x)` of an integer: two's complement wrap to 32 bits. -/
def toInt32 (x : Int) : Int := (x + 2 ^ 31) % 2 ^ 32 - 2 ^ 31

/-- The values of Go's `int32`. -/
def isInt32 (x : Int) : Prop := -2 ^ 31 ≤ x ∧ x < 2 ^ 31

instance (x : Int) : Decidable (isInt32 x) := by
  unfold isInt32; exact inferInstance

/-- Go's `int` arithmetic (64 bits): the result of an addition, wrapped. -/
def wrapInt (x : Int) : Int := (x + 2 ^ 63) % 2 ^ 64 - 2 ^ 63

/-- The values of Go's `int` (64 bits). -/
def isInt (x : Int) : Prop := -2 ^ 63 ≤ x ∧ x < 2 ^ 63

instance (x : Int) : Decidable (isInt x) := by
  unfold isInt; exact inferInstance

/-- The coder functions of one extension type (`extensionFieldInfo`): its wire tag,
its size function, which may be nil, and its marshal function. -/
structure extensionFieldInfo (V O E : Type) where
  /-- The field `wiretag` (a `uint64`). -/
  wiretag : Nat
  /-- The field `funcs.size`; `none` is a nil function. -/
  size : Option (V → Int → O → Int)
  /-- The field `funcs.marshal`: buffer, value, wire tag, options. -/
  marshal : Bytes → V → Nat → O → Bytes × Option E

/-- An `ExtensionField`: what `x.Type()` and `x.Value()` return. -/
structure ExtensionField (T V : Type) where
  /-- The result of `x.Type()`. -/
  type : T
  /-- The result of `x.Value()`. -/
  value : V

/-- A non-nil `map[int32]ExtensionField`, as the list of its entries in the order in
which `range` visits them. A Go map holds each key once and its keys are `int32`
values: see `Extensions.WF`. -/
abbrev Extensions (T V : Type) := List (Int × ExtensionField T V)

/-- The well-formed stores: every key occurs once and is an `int32`. -/
def Extensions.WF {T V : Type} (ext : Extensions T V) : Prop :=
  (ext.map Prod.fst).Nodup ∧ ∀ k ∈ ext.map Prod.fst, isInt32 k

/-- The map index expression `ext[k]`: the entry under `k`, the zero value when the
key is absent. -/
def Extensions.index {T V : Type} [Inhabited T] [Inhabited V]
    (ext : Extensions T V) (k : Int) : ExtensionField T V :=
  match ext.lookup k with
  | some x => x
  | none => ⟨default, default⟩

/-- The part of a message the codec reads and writes: the extension store behind
`mi.extensionOffset`, which may be a nil map, and the unknown bytes behind
`mi.unknownOffset`. -/
structure Message (T V : Type) where
  /-- The extension store; `none` is the nil map. -/
  extensions : Option (Extensions T V)
  /-- The unknown tail. -/
  unknown : Bytes

/-- The functions of the packages that are not among the sources. -/
structure Env (T V O U E : Type) where
  /-- The flag `flags.ProtoLegacy`. -/
  ProtoLegacy : Bool
  /-- The constructor `errors.New`. -/
  errorsNew : String → E
  /-- The sentinel `errUnknown`. -/
  errUnknown : E
  /-- The lookup `getExtensionFieldInfo`. -/
  getExtensionFieldInfo : T → extensionFieldInfo V O E
  /-- The function `wire.DecodeTag`: field number and wire type of a tag. -/
  DecodeTag : Nat → Int × Nat
  /-- The function `wire.EncodeTag`. -/
  EncodeTag : Int → Nat → Nat
  /-- The function `wire.SizeTag`. -/
  SizeTag : Int → Int
  /-- The function `wire.AppendTag`. -/
  AppendTag : Bytes → Int → Nat → Bytes
  /-- The constant `wire.BytesType`. -/
  BytesType : Nat
  /-- The constant `messageset.FieldMessage`. -/
  FieldMessage : Int
  /-- The function `messageset.SizeField`. -/
  SizeField : Int → Int
  /-- The function `messageset.SizeUnknown`. -/
  SizeUnknown : Bytes → Int
  /-- The function `messageset.AppendFieldStart`. -/
  AppendFieldStart : Bytes → Int → Bytes
  /-- The function `messageset.AppendFieldEnd`. -/
  AppendFieldEnd : Bytes → Bytes
  /-- The function `messageset.AppendUnknown`: buffer and error. -/
  AppendUnknown : Bytes → Bytes → Bytes × Option E
  /-- The scan of `messageset.Unmarshal` over an input, with its `wantLen` argument:
  the items it finds, in input order, and the error it ends with, if any. -/
  scan : Bytes → Bool → List (Int × Bytes) × Option E
  /-- The method `mi.unmarshalExtension`: the store it leaves and its error (its
  first result is not used by the caller). -/
  unmarshalExtension : Bytes → Int → Nat → Extensions T V → U → Extensions T V × Option E

variable {T V O U E : Type}

/-- The function `marshalMessageSetField`. -/
def marshalMessageSetField (c : Env T V O U E) (b : Bytes) (x : ExtensionField T V)
    (opts : O) : Bytes × Option E :=
  let xi := c.getExtensionFieldInfo x.type
  let num := (c.DecodeTag xi.wiretag).1
  let b := c.AppendFieldStart b num
  match xi.marshal b x.value (c.EncodeTag c.FieldMessage c.BytesType) opts with
  | (b, some err) => (b, some err)
  | (b, none) => (c.AppendFieldEnd b, none)

/-- The two loops of `marshalMessageSet` over extension fields: each field is
marshaled onto the buffer, and the first error ends the function with the buffer
and the error of that field. -/
def marshalMessageSet.loop (c : Env T V O U E) (opts : O) :
    Bytes → List (ExtensionField T V) → Bytes × Option E
  | b, [] => (b, none)
  | b, x :: xs =>
    match marshalMessageSetField c b x opts with
    | (b, some err) => (b, some err)
    | (b, none) => marshalMessageSet.loop c opts b xs

/-- The library function `sort.Ints`: the keys in increasing order. -/
def sortInts (keys : List Int) : List Int := keys.insertionSort (· ≤ ·)

/-- The function `marshalMessageSet`. The message is only read: it is returned as
it was passed. The conversion `int(k)` of an `int32` key is the same integer; the
conversion `int32(k)` back is `toInt32`. -/
def marshalMessageSet [Inhabited T] [Inhabited V] (c : Env T V O U E) (b : Bytes)
    (p : Message T V) (opts : O) : Message T V × Bytes × Option E :=
  if !c.ProtoLegacy then
    (p, b, some (c.errorsNew "no support for message_set_wire_format"))
  else
    let ext := p.extensions.getD []
    let r : Bytes × Option E :=
      match ext.length with
      | 0 => (b, none)
      | 1 => marshalMessageSet.loop c opts b (ext.map Prod.snd)
      | _ =>
        let keys := ext.map Prod.fst
        let keys := sortInts keys
        marshalMessageSet.loop c opts b (keys.map fun k => ext.index (toInt32 k))
    match r with
    | (b, some err) => (p, b, some err)
    | (b, none) =>
      let unknown := p.unknown
      match c.AppendUnknown b unknown with
      | (b, some err) => (p, b, some err)
      | (b, none) => (p, b, none)

/-- The function `sizeMessageSet`. The message is only read: it is returned as it
was passed. Every `+=` on the `int` accumulator is an addition of Go's `int`. -/
def sizeMessageSet (c : Env T V O U E) (p : Message T V) (opts : O) :
    Message T V × Int :=
  if !c.ProtoLegacy then
    (p, 0)
  else
    let ext := p.extensions.getD []
    let size := ext.foldl (fun size kx =>
      let x := kx.2
      let xi := c.getExtensionFieldInfo x.type
      match xi.size with
      | none => size
      | some f =>
        let num := (c.DecodeTag xi.wiretag).1
        let size := wrapInt (size + c.SizeField num)
        wrapInt (size + f x.value (c.SizeTag c.FieldMessage) opts)) 0
    let unknown := p.unknown
    (p, wrapInt (size + c.SizeUnknown unknown))

/-- The function literal that `unmarshalMessageSet` passes to the parser. It works
on the two variables it captures: the store `ext` and the tail `*unknown`. -/
def unmarshalMessageSet.fn [DecidableEq E] (c : Env T V O U E) (opts : U) (num : Int)
    (v : Bytes) (s : Extensions T V × Bytes) : (Extensions T V × Bytes) × Option E :=
  match c.unmarshalExtension v num c.BytesType s.1 opts with
  | (ext, err) =>
    if err = some c.errUnknown then
      let unknown := c.AppendTag s.2 num c.BytesType
      let unknown := unknown ++ v
      ((ext, unknown), none)
    else
      ((ext, s.2), err)

/-- Modelled from the spec: the calls of the field callback by `messageset.Unmarshal`,
which is not among the sources. The parser invokes the callback "for each decoded
extension", one call per item in input order; a failure of the callback "aborts the
entire unmarshal call": the first error of the callback ends the parse and is its
result; after the last item the result is the error `perr` of the scan itself. -/
def messageset.deliver {σ : Type} (fn : Int → Bytes → σ → σ × Option E)
    (perr : Option E) : List (Int × Bytes) → σ → σ × Option E
  | [], s => (s, perr)
  | (num, v) :: rest, s =>
    match fn num v s with
    | (s, some err) => (s, some err)
    | (s, none) => messageset.deliver fn perr rest s

/-- Modelled from the spec: `messageset.Unmarshal` of package
`internal/encoding/messageset`, which is not among the sources. The parser "scans
the legacy envelope structure, invoking `field_callback(field_number,
payload_bytes)` for each decoded extension", and a failure of the callback
"propagates as a fatal error for the whole operation". What the scan finds in the
input is the field `scan` of the environment. -/
def messageset.Unmarshal {σ : Type} (c : Env T V O U E) (b : Bytes) (wantLen : Bool)
    (fn : Int → Bytes → σ → σ × Option E) (s : σ) : σ × Option E :=
  messageset.deliver fn (c.scan b wantLen).2 (c.scan b wantLen).1 s

/-- The function `unmarshalMessageSet`: the message after the call, the count and
the error returned. -/
def unmarshalMessageSet [DecidableEq E] (c : Env T V O U E) (b : Bytes)
    (p : Message T V) (opts : U) : Message T V × Int × Option E :=
  if !c.ProtoLegacy then
    (p, 0, some (c.errorsNew "no support for message_set_wire_format"))
  else
    let ext :=
      match p.extensions with
      | none => []
      | some ext => ext
    match messageset.Unmarshal c b true (unmarshalMessageSet.fn c opts) (ext, p.unknown) with
    | ((ext, unknown), err) => (⟨some ext, unknown⟩, (b.length : Int), err)

/-! ## The specification of the marshal order, in its own words, and the
auxiliary definitions of the proofs -/

/-- The field number of an extension field: that of the wire tag of its descriptor. -/
def fieldNum (c : Env T V O U E) (x : ExtensionField T V) : Int :=
  (c.DecodeTag (c.getExtensionFieldInfo x.type).wiretag).1

/-- The envelope of the specification, put on a buffer: `AppendFieldStart(num)`, then
the output of the marshal function of the field under the tag
`EncodeTag(FieldMessage, BytesType)`, then `AppendFieldEnd`. -/
def Spec.envelope (c : Env T V O U E) (opts : O) (b : Bytes) (x : ExtensionField T V) :
    Bytes :=
  c.AppendFieldEnd
    ((c.getExtensionFieldInfo x.type).marshal (c.AppendFieldStart b (fieldNum c x)) x.value
      (c.EncodeTag c.FieldMessage c.BytesType) opts).1

/-- The marshal function of a field succeeds on every buffer. -/
def marshalSucceeds (c : Env T V O U E) (opts : O) (x : ExtensionField T V) : Prop :=
  ∀ b : Bytes, ((c.getExtensionFieldInfo x.type).marshal b x.value
    (c.EncodeTag c.FieldMessage c.BytesType) opts).2 = none

/-- The fields of a store in the order of their sorted keys: what the loop of
`marshalMessageSet` over the sorted keys visits. -/
def sortedFields [Inhabited T] [Inhabited V] (ext : Extensions T V) :
    List (ExtensionField T V) :=
  (sortInts (ext.map Prod.fst)).map fun k => ext.index (toInt32 k)

/-- The end of `marshalMessageSet` after its loops: the error of a field, or the
unknown tail through `messageset.AppendUnknown`. -/
def marshalMessageSet.finish (c : Env T V O U E) (p : Message T V)
    (r : Bytes × Option E) : Message T V × Bytes × Option E :=
  match r with
  | (b, some err) => (p, b, some err)
  | (b, none) => (p, c.AppendUnknown b p.unknown)

/-! ## The wire primitives and the message-set functions that the round trip of
unknown items goes through

The packages `internal/encoding/wire` and `internal/encoding/messageset` are not
among the sources. The definitions of this section model, with the names of these
packages, the functions that decide what the decode and re-encode of an unknown
item gives: the tags, varints and length-delimited values of the wire format, the
envelope markers, the scan of the parser and the re-wrapping of the unknown tail. -/

namespace wire

/-- Modelled from the spec: the reasons for which a wire primitive of package
`internal/encoding/wire`, which is not among the sources, rejects its input ("input
bytes do not parse as valid tagged fields"). -/
inductive ErrCode where
  | truncated
  | fieldNumber
  | overflow
  | reserved
  | endGroup
  deriving DecidableEq, Repr

/-- Modelled from the spec: the bytes of a varint of the wire format ("Wire
Primitives: encodes/decodes tags, varints, length-delimited blobs"), package
`internal/encoding/wire` not being among the sources: 7 bits per byte, lowest
first, the high bit set on every byte but the last; `fuel` bounds the number of
continuation bytes. -/
def varintBytes : Nat → Nat → Bytes
  | 0, v => [Fin.ofNat v]
  | fuel + 1, v =>
    if v < 128 then [Fin.ofNat v]
    else Fin.ofNat (v % 128 + 128) :: varintBytes fuel (v / 128)

/-- Modelled from the spec: `wire.AppendVarint`, which is not among the sources: the
varint of a `uint64`, of at most 10 bytes, put on the buffer. -/
def AppendVarint (b : Bytes) (v : Nat) : Bytes := b ++ varintBytes 9 (v % 2 ^ 64)

/-- Modelled from the spec: the loop of `wire.ConsumeVarint`, which is not among the
sources, with the number of bytes it may still read: the value and the number of
bytes read, or the reason of the failure; the tenth byte may only be 0 or 1. -/
def ConsumeVarint.go : Nat → Bytes → Except ErrCode (Nat × Nat)
  | _, [] => .error .truncated
  | 0, _ :: _ => .error .overflow
  | k + 1, c :: rest =>
    if k = 0 then
      if c.val < 2 then .ok (c.val, 1) else .error .overflow
    else if c.val < 128 then .ok (c.val, 1)
    else
      match ConsumeVarint.go k rest with
      | .ok (v, n) => .ok (c.val - 128 + 128 * v, n + 1)
      | .error e => .error e

/-- Modelled from the spec: `wire.ConsumeVarint`, which is not among the sources. -/
def ConsumeVarint (b : Bytes) : Except ErrCode (Nat × Nat) := ConsumeVarint.go 10 b

/-- Modelled from the spec: `wire.DecodeTag`, which is not among the sources: the
field number, -1 when it is not an `int32`, and the wire type of a tag. -/
def DecodeTag (x : Nat) : Int × Nat :=
  if x / 8 > 2 ^ 31 - 1 then (-1, 0) else ((x / 8 : Nat), x % 8)

/-- Modelled from the spec: `wire.EncodeTag`, which is not among the sources: the
number shifted by 3 bits, on 64 bits, with the wire type in the low 3 bits. -/
def EncodeTag (num : Int) (typ : Nat) : Nat :=
  ((num % 2 ^ 64).toNat * 8) % 2 ^ 64 + typ % 8

/-- Modelled from the spec: `wire.AppendTag`, which is not among the sources: the
varint of the encoded tag. -/
def AppendTag (b : Bytes) (num : Int) (typ : Nat) : Bytes :=
  AppendVarint b (EncodeTag num typ)

/-- Modelled from the spec: `wire.ConsumeTag`, which is not among the sources: field
number, wire type and number of bytes read; a field number below 1 is rejected. -/
def ConsumeTag (b : Bytes) : Except ErrCode (Int × Nat × Nat) :=
  match ConsumeVarint b with
  | .error e => .error e
  | .ok (v, n) =>
    if (DecodeTag v).1 < 1 then .error .fieldNumber
    else .ok ((DecodeTag v).1, (DecodeTag v).2, n)

/-- Modelled from the spec: `wire.ConsumeBytes`, which is not among the sources: the
payload of a length-delimited value and the number of bytes read, length prefix
included. -/
def ConsumeBytes (b : Bytes) : Except ErrCode (Bytes × Nat) :=
  match ConsumeVarint b with
  | .error e => .error e
  | .ok (m, n) =>
    if m > (b.drop n).length then .error .truncated
    else .ok ((b.drop n).take m, n + m)

/-- Modelled from the spec: the recursion of `wire.ConsumeFieldValue`, which is not
among the sources: the number of bytes of a value that is passed over. With
`none` the value has the wire type `typ` (0 varint, 1 and 5 fixed, 2 bytes); with
`some num` the bytes are the rest of the group `num`, up to its end marker. -/
def ConsumeFieldValue.go : Nat → Option Int → Nat → Bytes → Except ErrCode Nat
  | 0, _, _, _ => .error .truncated
  | _ + 1, none, typ, b =>
    match typ with
    | 0 =>
      match ConsumeVarint b with
      | .error e => .error e
      | .ok (_, n) => .ok n
    | 5 => if b.length < 4 then .error .truncated else .ok 4
    | 1 => if b.length < 8 then .error .truncated else .ok 8
    | 2 =>
      match ConsumeBytes b with
      | .error e => .error e
      | .ok (_, n) => .ok n
    | 4 => .error .endGroup
    | _ => .error .reserved
  | fuel + 1, some num, _, b =>
    match ConsumeTag b with
    | .error e => .error e
    | .ok (num2, typ2, n) =>
      if typ2 = 4 then
        if num ≠ num2 then .error .endGroup else .ok n
      else if typ2 = 3 then
        match ConsumeFieldValue.go fuel (some num2) 3 (b.drop n) with
        | .error e => .error e
        | .ok m =>
          match ConsumeFieldValue.go fuel (some num) 3 (b.drop (n + m)) with
          | .error e => .error e
          | .ok k => .ok (n + m + k)
      else
        match ConsumeFieldValue.go fuel none typ2 (b.drop n) with
        | .error e => .error e
        | .ok m =>
          match ConsumeFieldValue.go fuel (some num) 3 (b.drop (n + m)) with
          | .error e => .error e
          | .ok k => .ok (n + m + k)

/-- Modelled from the spec: `wire.ConsumeFieldValue`, which is not among the sources:
the number of bytes of the value of a field of number `num` and wire type `typ`,
a group (type 3) running up to its end marker. -/
def ConsumeFieldValue (num : Int) (typ : Nat) (b : Bytes) : Except ErrCode Nat :=
  if typ = 3 then ConsumeFieldValue.go (b.length + 1) (some num) 3 b
  else ConsumeFieldValue.go 1 none typ b

end wire

/-- Modelled from the spec: `messageset.AppendFieldStart`, which is not among the
sources ("emit the envelope open/close markers framing one extension's payload"):
the start marker of the item group, field 1, and the type id as the varint
field 2. -/
def messageset.AppendFieldStart (b : Bytes) (num : Int) : Bytes :=
  let b := wire.AppendTag b 1 3
  let b := wire.AppendTag b 2 0
  wire.AppendVarint b ((num % 2 ^ 64).toNat)

/-- Modelled from the spec: `messageset.AppendFieldEnd`, which is not among the
sources: the end marker of the item group. -/
def messageset.AppendFieldEnd (b : Bytes) : Bytes := wire.AppendTag b 1 4

/-- Modelled from the spec: the loop of `messageset.ConsumeFieldValue`, which is not
among the sources: the sub-fields of an item after its start marker, in whatever
order they come, up to the end marker: the type id (field 2, a varint between 1
and the largest `int32`), the message (field 3, length-delimited, kept with its
length prefix when `wantLen` holds, merged when it comes twice), any other field
passed over. The result is the type id, the message and the bytes after the
item. -/
def messageset.ConsumeFieldValue.go (errorsNew : String → E)
    (ParseError : wire.ErrCode → E) (wantLen : Bool) :
    Nat → Bytes → Int → Option Bytes → Except E (Int × Bytes × Bytes)
  | 0, _, _, _ => .error (ParseError .truncated)
  | fuel + 1, b, typeid, message =>
    match wire.ConsumeTag b with
    | .error e => .error (ParseError e)
    | .ok (num, wtyp, n) =>
      let b := b.drop n
      if num = 1 ∧ wtyp = 4 then
        let message :=
          if wantLen ∧ (message.getD []).length = 0 then
            wire.AppendVarint (message.getD []) 0
          else message.getD []
        .ok (typeid, message, b)
      else if num = 2 ∧ wtyp = 0 then
        match wire.ConsumeVarint b with
        | .error e => .error (ParseError e)
        | .ok (v, n) =>
          let b := b.drop n
          if v < 1 ∨ v > 2 ^ 31 - 1 then
            .error (errorsNew "invalid type_id in message set")
          else
            messageset.ConsumeFieldValue.go errorsNew ParseError wantLen fuel b (v : Int)
              message
      else if num = 3 ∧ wtyp = 2 then
        match wire.ConsumeBytes b with
        | .error e => .error (ParseError e)
        | .ok (m, n) =>
          let message :=
            match message with
            | none => if wantLen then b.take n else m
            | some message =>
              if wantLen then
                match wire.ConsumeVarint message with
                | .error _ =>
                  wire.AppendVarint [] (message.length + m.length) ++ message ++ m
                | .ok (_, nn) =>
                  wire.AppendVarint [] ((message.drop nn).length + m.length)
                    ++ message.drop nn ++ m
              else message ++ m
          messageset.ConsumeFieldValue.go errorsNew ParseError wantLen fuel (b.drop n) typeid
            (some message)
      else
        match wire.ConsumeFieldValue num wtyp b with
        | .error e => .error (ParseError e)
        | .ok n =>
          messageset.ConsumeFieldValue.go errorsNew ParseError wantLen fuel (b.drop n) typeid
            message

/-- Modelled from the spec: `messageset.ConsumeFieldValue`, which is not among the
sources: one item after its start marker. Every turn of the loop reads a tag, so
one turn more than the input has bytes is enough. -/
def messageset.ConsumeFieldValue (errorsNew : String → E) (ParseError : wire.ErrCode → E)
    (b : Bytes) (wantLen : Bool) : Except E (Int × Bytes × Bytes) :=
  messageset.ConsumeFieldValue.go errorsNew ParseError wantLen (b.length + 1) b 0 none

/-- Modelled from the spec: the loop of `messageset.Unmarshal`, which is not among
the sources, without its callback ("scans the legacy envelope structure"): the
items of the input, type id and message, in input order, and the error that ends
the scan, if any. A field that is not an item is passed over, and so is an item
without type id. -/
def messageset.scan.go (errorsNew : String → E) (ParseError : wire.ErrCode → E)
    (wantLen : Bool) : Nat → Bytes → List (Int × Bytes) × Option E
  | _, [] => ([], none)
  | 0, _ :: _ => ([], some (ParseError .truncated))
  | fuel + 1, c :: cs =>
    match wire.ConsumeTag (c :: cs) with
    | .error e => ([], some (ParseError e))
    | .ok (num, wtyp, n) =>
      let b := (c :: cs).drop n
      if num ≠ 1 ∨ wtyp ≠ 3 then
        match wire.ConsumeFieldValue num wtyp b with
        | .error e => ([], some (ParseError e))
        | .ok n => messageset.scan.go errorsNew ParseError wantLen fuel (b.drop n)
      else
        match messageset.ConsumeFieldValue errorsNew ParseError b wantLen with
        | .error e => ([], some e)
        | .ok (typeID, value, rest) =>
          if typeID = 0 then messageset.scan.go errorsNew ParseError wantLen fuel rest
          else
            ((typeID, value) :: (messageset.scan.go errorsNew ParseError wantLen fuel rest).1,
              (messageset.scan.go errorsNew ParseError wantLen fuel rest).2)

/-- Modelled from the spec: the scan of `messageset.Unmarshal`, which is not among
the sources, over an input. Every turn of the loop reads a tag, so one turn more
than the input has bytes is enough. -/
def messageset.scan (errorsNew : String → E) (ParseError : wire.ErrCode → E) (b : Bytes)
    (wantLen : Bool) : List (Int × Bytes) × Option E :=
  messageset.scan.go errorsNew ParseError wantLen (b.length + 1) b

/-- Modelled from the spec: the loop of `messageset.AppendUnknown`, which is not among
the sources: it "re-wraps each preserved unknown field from the tail into the
legacy envelope form" (start marker with the number of the field, the message tag,
the length-delimited value as it is stored, end marker) and "fails with a
structural Error if the tail's stored bytes cannot be re-parsed as valid tagged
fields", which are length-delimited. -/
def messageset.AppendUnknown.go (errorsNew : String → E) :
    Nat → Bytes → Bytes → Bytes × Option E
  | _, b, [] => (b, none)
  | 0, _, _ :: _ => ([], some (errorsNew "invalid data in message set unknown fields"))
  | fuel + 1, b, c :: cs =>
    match wire.ConsumeTag (c :: cs) with
    | .error _ => ([], some (errorsNew "invalid data in message set unknown fields"))
    | .ok (num, typ, n) =>
      if typ ≠ 2 then ([], some (errorsNew "invalid data in message set unknown fields"))
      else
        let unknown := (c :: cs).drop n
        match wire.ConsumeBytes unknown with
        | .error _ => ([], some (errorsNew "invalid data in message set unknown fields"))
        | .ok (_, n) =>
          let b := messageset.AppendFieldStart b num
          let b := wire.AppendTag b 3 2
          let b := b ++ unknown.take n
          let b := messageset.AppendFieldEnd b
          messageset.AppendUnknown.go errorsNew fuel b (unknown.drop n)

/-- Modelled from the spec: `messageset.AppendUnknown`, which is not among the
sources. Every turn of the loop reads a tag, so one turn more than the tail has
bytes is enough. -/
def messageset.AppendUnknown (errorsNew : String → E) (b unknown : Bytes) :
    Bytes × Option E :=
  messageset.AppendUnknown.go errorsNew (unknown.length + 1) b unknown

/-- An environment whose wire and message-set functions are the ones modelled in this
section; the flag, the errors, the coders of the extension types, the extension
decoder and the size functions are those of `base`. -/
def messageset.env (base : Env T V O U E) (ParseError : wire.ErrCode → E) :
    Env T V O U E :=
  { base with
    DecodeTag := wire.DecodeTag
    EncodeTag := wire.EncodeTag
    AppendTag := wire.AppendTag
    BytesType := 2
    FieldMessage := 3
    AppendFieldStart := messageset.AppendFieldStart
    AppendFieldEnd := messageset.AppendFieldEnd
    AppendUnknown := messageset.AppendUnknown base.errorsNew
    scan := messageset.scan base.errorsNew ParseError }

/-- The value that the parser delivers for a payload when `wantLen` holds: the
varint of its length and the payload. -/
def messageset.lenPrefixed (p : Bytes) : Bytes := wire.AppendVarint [] p.length ++ p

/-- The canonical form of an item: the start marker with the type id, then the
message sub-field with its payload, then the end marker; what
`marshalMessageSetField` writes for a field whose marshal function writes its tag
and its length-delimited payload. -/
def messageset.item (num : Int) (p : Bytes) : Bytes :=
  messageset.AppendFieldEnd
    (wire.AppendTag (messageset.AppendFieldStart [] num) 3 2 ++ messageset.lenPrefixed p)

/-- An input made of items in canonical form, given by type id and payload. -/
def messageset.wireItems (items : List (Int × Bytes)) : Bytes :=
  (items.map fun it => messageset.item it.1 it.2).flatten

/-- The items that the parser delivers for the items of an input, with the length
prefix on their payloads. -/
def messageset.delivered (items : List (Int × Bytes)) : List (Int × Bytes) :=
  items.map fun it => (it.1, messageset.lenPrefixed it.2)

/-! ## An example environment

A small wire format with one-byte tags and one-byte lengths, on which the
functions above can be run: field numbers below 32, payloads shorter than 128
bytes. The extension types are the numbers 2, 5, 6, 7 and 9; type 6 has no size
function and the marshal function of type 7 fails. The decoder recognizes the
numbers 2, 5, 7 and 9, fails on number 7 and reports every other number as unknown. -/

namespace Demo

/-- The errors of the example environment. -/
inductive Err where
  | unsupported (msg : String)
  | unknown
  | malformed
  | field
  deriving DecidableEq, Repr

/-- The byte of a small number. -/
def byte (n : Nat) : Fin 256 := Fin.ofNat n

/-- The one-byte tag of a field number and a wire type. -/
def tagByte (num : Int) (typ : Nat) : Fin 256 := byte (num.toNat * 8 + typ)

/-- The coder functions of the extension type `t`. -/
def info (t : Nat) : extensionFieldInfo Bytes Unit Err where
  wiretag := t * 8 + 2
  size := if t = 6 then none else some fun v tagsize _ => tagsize + 1 + (v.length : Int)
  marshal := fun b v tag _ =>
    if t = 7 then (b ++ [byte tag], some Err.field)
    else (b ++ [byte tag, byte v.length] ++ v, none)

/-- The opening marker of an envelope: start of group 1, then the type id as
field 2. -/
def fieldStart (b : Bytes) (num : Int) : Bytes := b ++ [11, 16, byte num.toNat]

/-- The closing marker of an envelope: end of group 1. -/
def fieldEnd (b : Bytes) : Bytes := b ++ [12]

/-- The length-delimited fields of an unknown tail: number, and length byte with
payload. -/
def fields : Nat → Bytes → Option (List (Int × Bytes))
  | _, [] => some []
  | 0, _ :: _ => none
  | _ + 1, [_] => none
  | fuel + 1, tag :: len :: rest =>
    if tag.val % 8 = 2 ∧ len.val ≤ rest.length then
      match fields fuel (rest.drop len.val) with
      | some fs => some (((tag.val / 8 : Nat), len :: rest.take len.val) :: fs)
      | none => none
    else none

/-- The unknown tail, each of its fields wrapped in an envelope. -/
def appendUnknown (b unknown : Bytes) : Bytes × Option Err :=
  match fields unknown.length unknown with
  | none => (b, some Err.malformed)
  | some fs => (fs.foldl (fun b f => fieldEnd (fieldStart b f.1 ++ [26] ++ f.2)) b, none)

/-- The size of the unknown tail in envelopes. -/
def sizeUnknown (unknown : Bytes) : Int :=
  match fields unknown.length unknown with
  | none => 0
  | some fs => (fs.map fun f => (5 + f.2.length : Int)).sum

/-- The items of an input made of envelopes: type id, and length byte with payload. -/
def items : Nat → Bytes → List (Int × Bytes) × Option Err
  | _, [] => ([], none)
  | 0, _ :: _ => ([], some Err.malformed)
  | fuel + 1, s :: t :: num :: m :: len :: rest =>
    if s.val = 11 ∧ t.val = 16 ∧ m.val = 26 ∧ len.val ≤ rest.length
        ∧ (rest.drop len.val).head? = some 12 then
      let r := items fuel (rest.drop len.val).tail
      (((num.val : Int), len :: rest.take len.val) :: r.1, r.2)
    else ([], some Err.malformed)
  | _ + 1, _ => ([], some Err.malformed)

/-- The extension decoder of the example. -/
def unmarshalExtension (v : Bytes) (num : Int) (_wtyp : Nat) (ext : Extensions Nat Bytes)
    (_opts : Unit) : Extensions Nat Bytes × Option Err :=
  if num = 2 ∨ num = 5 ∨ num = 9 then
    ((num, ⟨num.toNat, v.tail⟩) :: ext.filter (fun e => e.1 ≠ num), none)
  else if num = 7 then (ext, some Err.field)
  else (ext, some Err.unknown)

/-- The example environment, with legacy support enabled. -/
def env : Env Nat Bytes Unit Unit Err where
  ProtoLegacy := true
  errorsNew := Err.unsupported
  errUnknown := Err.unknown
  getExtensionFieldInfo := info
  DecodeTag := fun x => ((x / 8 : Nat), x % 8)
  EncodeTag := fun num typ => num.toNat * 8 + typ
  SizeTag := fun _ => 1
  AppendTag := fun b num typ => b ++ [tagByte num typ]
  BytesType := 2
  FieldMessage := 3
  SizeField := fun _ => 4
  SizeUnknown := sizeUnknown
  AppendFieldStart := fieldStart
  AppendFieldEnd := fieldEnd
  AppendUnknown := appendUnknown
  scan := fun b _ => items b.length b
  unmarshalExtension := unmarshalExtension

/-- The example environment, with legacy support disabled. -/
def envOff : Env Nat Bytes Unit Unit Err := { env with ProtoLegacy := false }

/-- A store whose entries were inserted under the keys 5, 2 and 9. -/
def ext529 : Extensions Nat Bytes :=
  [(5, ⟨5, [50, 51]⟩), (2, ⟨2, [20]⟩)] ++ [(9, ⟨9, []⟩)]

/-- The same store, listed in the order 9, 5, 2. -/
def ext952 : Extensions Nat Bytes :=
  [(9, ⟨9, []⟩)] ++ [(5, ⟨5, [50, 51]⟩), (2, ⟨2, [20]⟩)]

/-- A message with the store `ext529` and the unknown field 4 in its tail. -/
def msg529 : Message Nat Bytes := ⟨some ext529, [34, 1, 77]⟩

/-- The same message, its store listed in the order 9, 5, 2. -/
def msg952 : Message Nat Bytes := ⟨some ext952, [34, 1, 77]⟩

/-- An input of two envelopes, for the type ids 4 and 12, which the decoder does
not know. -/
def input412 : Bytes := [11, 16, 4, 26, 1, 77, 12, 11, 16, 12, 26, 2, 1, 2, 12]

/-- A message with a field of type 5 and a field of type 6, which has no size
function, and the unknown field 4 in its tail. -/
def msg56 : Message Nat Bytes :=
  ⟨some ([(5, ⟨5, [50, 51]⟩)] ++ [(6, ⟨6, [1, 2, 3]⟩)]), [34, 1, 77]⟩

/-- An input of three envelopes, for the type ids 4, 7 and 2: the decoder does not
know 4 and fails on 7. -/
def input472 : Bytes :=
  [11, 16, 4, 26, 1, 77, 12, 11, 16, 7, 26, 1, 9, 12, 11, 16, 2, 26, 1, 20, 12]

/-- An input of three envelopes, for the type ids 2, 4 and 12: the decoder knows
only the first. -/
def input2412 : Bytes :=
  [11, 16, 2, 26, 1, 20, 12, 11, 16, 4, 26, 1, 77, 12, 11, 16, 12, 26, 2, 1, 2, 12]

/-- The field numbers that the decoder of the example decodes without error. -/
def registered (num : Int) : Bool := num = 2 || num = 5 || num = 9

/-- A store with the fields 9, 7 and 5, in this order: the marshal function of the
field 7 fails. -/
def ext975 : Extensions Nat Bytes :=
  [(9, ⟨9, []⟩), (7, ⟨7, [70]⟩), (5, ⟨5, [50, 51]⟩)]

/-- The field 5 of the store `ext975`. -/
def field5 : ExtensionField Nat Bytes := ⟨5, [50, 51]⟩

/-- The field 7 of the store `ext975`. -/
def field7 : ExtensionField Nat Bytes := ⟨7, [70]⟩

/-- The field 9 of the store `ext975`. -/
def field9 : ExtensionField Nat Bytes := ⟨9, []⟩

/-- A message with the store `ext975` and the unknown field 4 in its tail. -/
def msg975 : Message Nat Bytes := ⟨some ext975, [34, 1, 77]⟩

/-- The example environment with the wire and message-set functions of the model. -/
def wireEnv : Env Nat Bytes Unit Unit Err := messageset.env env fun _ => Err.malformed

/-- An item of type id 4 whose message sub-field comes before its type id. -/
def inputSwapped : Bytes := [11, 26, 1, 77, 16, 4, 12]

/-- The items of an input, by type id and payload: the decoder knows only the
first. -/
def payloads2412 : List (Int × Bytes) := [(2, [20]), (4, [77]), (12, [1, 2])]

end Demo

/-- The contribution of one field to the size, in the words of the specification:
nothing for a field without a size function, else the size of the envelope markers
of its number and the size given by its size function under
`SizeTag(FieldMessage)`. -/
def Spec.fieldSize (c : Env T V O U E) (opts : O) (x : ExtensionField T V) :
    Option Int :=
  match (c.getExtensionFieldInfo x.type).size with
  | none => none
  | some f => some (c.SizeField (fieldNum c x) + f x.value (c.SizeTag c.FieldMessage) opts)

/-- The size of a message in the words of the specification: the sum of the
contributions of the fields that have a size function, and the size of the
unknown tail. -/
def Spec.size (c : Env T V O U E) (opts : O) (p : Message T V) : Int :=
  (((p.extensions.getD []).map Prod.snd).filterMap (Spec.fieldSize c opts)).sum
    + c.SizeUnknown p.unknown

/-- A field that has a size function, which under `SizeTag(FieldMessage)` gives the
number of bytes that its marshal function adds under `EncodeTag(FieldMessage,
BytesType)` when it succeeds. -/
def sizeMatchesMarshal (c : Env T V O U E) (opts : O) (x : ExtensionField T V) : Prop :=
  ∃ f, (c.getExtensionFieldInfo x.type).size = some f ∧
    ∀ b₁ b₂, (c.getExtensionFieldInfo x.type).marshal b₁ x.value
        (c.EncodeTag c.FieldMessage c.BytesType) opts = (b₂, none) →
      (b₂.length : Int) = b₁.length + f x.value (c.SizeTag c.FieldMessage) opts

end Protobuf

namespace Detrand

/-- The Go conversion `uint64(n)` of an `int`. -/
def toUint64 (n : Int) : Nat := (n % 2 ^ 64).toNat

/-- The Go conversion `int(x)` of a `uint64` (`int` has 64 bits). -/
def toInt (x : Nat) : Int := ((x : Int) + 2 ^ 63) % 2 ^ 64 - 2 ^ 63

/-- The function `Intn`, for the value `binHash` of the package variable. A panic is
an error with its message; the division of Go panics on a zero divisor. -/
def Intn (binHash : Nat) (n : Int) : Except String Int :=
  if n ≤ 0 then
    .error "invalid argument to Intn"
  else if toUint64 n = 0 then
    .error "runtime error: integer divide by zero"
  else
    .ok (toInt (binHash % toUint64 n))

/-- The function `Bool`, for the value `binHash` of the package variable. -/
def Bool (binHash : Nat) : Bool := binHash % 2 == 0

/-- The Go arithmetic of `int64`: the result of an operation, wrapped to 64 bits. -/
def toInt64 (x : Int) : Int := (x + 2 ^ 63) % 2 ^ 64 - 2 ^ 63

/-- The calls of package `os` that `binaryHash` makes, each a result that may fail:
`os.Executable()`, `os.Open(s)`, the size `fi.Size()` of `f.Stat()`, and
`f.ReadAt(buf[:], off)`, whose result is the content of `buf` after a read without
error (the count it also returns is not used). -/
structure OS (F E : Type) where
  /-- The call `os.Executable()`. -/
  Executable : Except E String
  /-- The call `os.Open(s)`. -/
  Open : String → Except E F
  /-- The call `f.Stat()`, with `fi.Size()` of its result (an `int64`). -/
  Stat : F → Except E Int
  /-- The call `f.ReadAt(buf[:], off)`: file, content of `buf` before, offset. -/
  ReadAt : F → Protobuf.Bytes → Int → Except E Protobuf.Bytes

/-- The constant `numSamples`. -/
def numSamples : Nat := 8

/-- The start value of the 64-bit FNV hash of the library (`fnv.New64`). -/
def fnvOffset64 : Nat := 14695981039346656037

/-- The prime of the 64-bit FNV hash of the library. -/
def fnvPrime64 : Nat := 1099511628211

/-- The library method `Write` of the hash of `fnv.New64` (FNV-1): for each byte
the state is multiplied by the prime, on 64 bits, and then xored with the byte. -/
def fnvWrite (h : Nat) (data : Protobuf.Bytes) : Nat :=
  data.foldl (fun h c => ((h * fnvPrime64) % 2 ^ 64) ^^^ c.val) h

/-- The library function `binary.LittleEndian.PutUint64`: the 8 bytes of a `uint64`,
lowest first. -/
def putUint64 (v : Nat) : Protobuf.Bytes :=
  (List.range 8).map fun k => (Fin.ofNat (v >>> (8 * k)) : Fin 256)

/-- The offset `i*fi.Size()/numSamples` of the sample `i`, in the arithmetic of
`int64`: the product wraps and the division truncates. -/
def sampleOffset (size : Int) (i : Nat) : Int :=
  Int.tdiv (toInt64 ((i : Int) * size)) (numSamples : Int)

/-- The `for` loop of `binaryHash`: its `n` iterations from the index `i` on, with the
content of `buf` and the state of the hash. A read that fails ends the function
with 0; after the last iteration the function returns `h.Sum64()`. -/
def binaryHash.loop {F E : Type} (os : OS F E) (f : F) (size : Int) :
    Nat → Nat → Protobuf.Bytes → Nat → Nat
  | 0, _, _, h => h
  | n + 1, i, buf, h =>
    match os.ReadAt f buf (sampleOffset size i) with
    | .error _ => 0
    | .ok buf => binaryHash.loop os f size n (i + 1) buf (fnvWrite h buf)

/-- The function `binaryHash`. The loop runs from `i = 0` while `i < numSamples`. The
array `buf` starts as 64 zero bytes, of which `PutUint64` sets the first 8. -/
def binaryHash {F E : Type} (os : OS F E) : Nat :=
  match os.Executable with
  | .error _ => 0
  | .ok s =>
    match os.Open s with
    | .error _ => 0
    | .ok f =>
      let h := fnvOffset64
      match os.Stat f with
      | .error _ => 0
      | .ok size =>
        let buf := putUint64 (toUint64 size) ++ List.replicate 56 0
        let h := fnvWrite h (buf.take 8)
        binaryHash.loop os f size numSamples 0 buf h

/-- The 64 bytes of an image from an offset on: the window of one sample. -/
def sample (image : Protobuf.Bytes) (size : Int) (i : Nat) : Protobuf.Bytes :=
  (image.drop (sampleOffset size i).toNat).take 64

/-- The byte string of the specification for an image of size `size`: the 8 bytes
of the size, lowest first, then the samples 0 to 7 in this order. -/
def Spec.hashed (image : Protobuf.Bytes) (size : Int) : Protobuf.Bytes :=
  putUint64 (toUint64 size) ++ ((List.range 8).map (sample image size)).flatten

/-- The 64-bit FNV-1 hash of a byte string. -/
def Spec.fnv1 (data : Protobuf.Bytes) : Nat := fnvWrite fnvOffset64 data

/-! ## Example file systems -/

namespace Demo

/-- A file system with the executable image `image` under the path `exe`: a read of
64 bytes succeeds exactly when it ends within the image. -/
def ofImage (image : Protobuf.Bytes) : OS Unit String where
  Executable := .ok "exe"
  Open := fun s => if s = "exe" then .ok () else .error "no such file"
  Stat := fun _ => .ok (image.length : Int)
  ReadAt := fun _ _ off =>
    if 0 ≤ off ∧ off + 64 ≤ (image.length : Int) then .ok ((image.drop off.toNat).take 64)
    else .error "EOF"

/-- A file system on which the executable cannot be located. -/
def noExecutable : OS Unit String where
  Executable := .error "not supported"
  Open := fun _ => .error "no such file"
  Stat := fun _ => .error "closed"
  ReadAt := fun _ _ _ => .error "closed"

/-- An image of 512 bytes: the byte at position `k` is `k` modulo 256. -/
def image512 : Protobuf.Bytes := (List.range 512).map fun k => (Fin.ofNat k : Fin 256)

/-- An image of 504 bytes. -/
def image504 : Protobuf.Bytes := (List.range 504).map fun k => (Fin.ofNat k : Fin 256)

end Demo

end Detrand

/-! # Theorems -/

namespace Protobuf

variable {T V O U E : Type}

theorem toInt32_of_isInt32 {k : Int} (h : isInt32 k) : toInt32 k = k := by
  unfold toInt32; unfold isInt32 at h; omega

theorem wrapInt_of_isInt {x : Int} (h : isInt x) : wrapInt x = x := by
  unfold wrapInt; unfold isInt at h; omega

theorem wrapInt_add_left (a b : Int) : wrapInt (wrapInt a + b) = wrapInt (a + b) := by
  unfold wrapInt; omega

/-- In a store whose keys are distinct, indexing by the key of an entry gives the
entry. -/
theorem Extensions.index_of_mem [Inhabited T] [Inhabited V] {ext : Extensions T V}
    (h : (ext.map Prod.fst).Nodup) {e : Int × ExtensionField T V} (he : e ∈ ext) :
    ext.index e.1 = e.2 := by
  induction ext with
  | nil => simp at he
  | cons a l ih =>
    obtain ⟨k, x⟩ := a
    rw [List.map_cons, List.nodup_cons] at h
    rcases List.mem_cons.1 he with rfl | hmem
    · simp [Extensions.index, List.lookup]
    · have hne : e.1 ≠ k := by
        intro heq
        have hm : e.1 ∈ l.map Prod.fst := List.mem_map_of_mem Prod.fst hmem
        rw [heq] at hm
        exact h.1 hm
      have hb : (e.1 == k) = false := by simpa using hne
      have := ih h.2 hmem
      simpa [Extensions.index, List.lookup, hb] using this

/-- Two listings of one well-formed store give the same entry under every key. -/
theorem Extensions.index_perm [Inhabited T] [Inhabited V] {ext₁ ext₂ : Extensions T V}
    (hp : ext₁.Perm ext₂) (h : (ext₁.map Prod.fst).Nodup) {k : Int}
    (hk : k ∈ ext₁.map Prod.fst) : ext₁.index k = ext₂.index k := by
  obtain ⟨e, he, rfl⟩ := List.mem_map.1 hk
  rw [Extensions.index_of_mem h he,
    Extensions.index_of_mem ((hp.map Prod.fst).nodup_iff.1 h) (hp.subset he)]

theorem sortInts_perm (keys : List Int) : (sortInts keys).Perm keys :=
  List.perm_insertionSort _ keys

theorem sortInts_sorted (keys : List Int) : (sortInts keys).Sorted (· ≤ ·) :=
  List.sorted_insertionSort _ keys

/-- Sorting distinct keys gives a strictly ascending list. -/
theorem sortInts_strict {keys : List Int} (h : keys.Nodup) :
    (sortInts keys).Sorted (· < ·) :=
  (sortInts_sorted keys).lt_of_le ((sortInts_perm keys).nodup_iff.2 h)

/-- The sorted keys do not depend on the order in which the keys were collected. -/
theorem sortInts_congr {k₁ k₂ : List Int} (hp : k₁.Perm k₂) : sortInts k₁ = sortInts k₂ :=
  List.eq_of_perm_of_sorted (((sortInts_perm k₁).trans hp).trans (sortInts_perm k₂).symm)
    (sortInts_sorted k₁) (sortInts_sorted k₂)

/-- On a well-formed store the loop over the sorted keys visits the fields under
these keys: the conversion `int32(k)` gives back the key. -/
theorem sortedFields_eq [Inhabited T] [Inhabited V] {ext : Extensions T V} (hwf : ext.WF) :
    sortedFields ext = (sortInts (ext.map Prod.fst)).map ext.index := by
  unfold sortedFields
  apply List.map_congr_left
  intro k hk
  rw [toInt32_of_isInt32 (hwf.2 k ((sortInts_perm _).subset hk))]

/-- The loop over the sorted keys visits every entry of the store once. -/
theorem sortedFields_perm [Inhabited T] [Inhabited V] {ext : Extensions T V}
    (hwf : ext.WF) : (sortedFields ext).Perm (ext.map Prod.snd) := by
  rw [sortedFields_eq hwf]
  have h1 : ((sortInts (ext.map Prod.fst)).map ext.index).Perm
      ((ext.map Prod.fst).map ext.index) := (sortInts_perm _).map _
  have h2 : (ext.map Prod.fst).map ext.index = ext.map Prod.snd := by
    rw [List.map_map]
    apply List.map_congr_left
    intro e he
    exact Extensions.index_of_mem hwf.1 he
  rw [h2] at h1
  exact h1

/-- When every key is the field number of its entry, the field numbers are visited
in the order of the sorted keys. -/
theorem sortedFields_fieldNum [Inhabited T] [Inhabited V] (c : Env T V O U E)
    {ext : Extensions T V} (hwf : ext.WF) (hkey : ∀ e ∈ ext, e.1 = fieldNum c e.2) :
    (sortedFields ext).map (fieldNum c) = sortInts (ext.map Prod.fst) := by
  rw [sortedFields_eq hwf, List.map_map]
  conv_rhs => rw [← List.map_id (sortInts (ext.map Prod.fst))]
  apply List.map_congr_left
  intro k hk
  obtain ⟨e, he, rfl⟩ := List.mem_map.1 ((sortInts_perm _).subset hk)
  simp only [Function.comp_apply, id_eq]
  rw [Extensions.index_of_mem hwf.1 he]
  exact (hkey e he).symm

/-- Two listings of one well-formed store are visited in the same order. -/
theorem sortedFields_congr [Inhabited T] [Inhabited V] {ext₁ ext₂ : Extensions T V}
    (hp : ext₁.Perm ext₂) (hwf : ext₁.WF) : sortedFields ext₁ = sortedFields ext₂ := by
  have hwf₂ : ext₂.WF :=
    ⟨(hp.map Prod.fst).nodup_iff.1 hwf.1, fun k hk => hwf.2 k ((hp.map Prod.fst).symm.subset hk)⟩
  rw [sortedFields_eq hwf, sortedFields_eq hwf₂, sortInts_congr (hp.map Prod.fst)]
  apply List.map_congr_left
  intro k hk
  exact Extensions.index_perm hp hwf.1 ((hp.map Prod.fst).symm.subset ((sortInts_perm _).subset hk))

/-- On a well-formed store, whatever the number of its entries, `marshalMessageSet`
is the loop over the fields in the order of their sorted keys, followed by the end
of the function. -/
theorem marshalMessageSet_eq_finish [Inhabited T] [Inhabited V] (c : Env T V O U E)
    (b : Bytes) (p : Message T V) (opts : O) (hflag : c.ProtoLegacy = true)
    (hwf : (p.extensions.getD []).WF) :
    marshalMessageSet c b p opts =
      marshalMessageSet.finish c p
        (marshalMessageSet.loop c opts b (sortedFields (p.extensions.getD []))) := by
  have hfin : ∀ r : Bytes × Option E,
      (match r with
        | (b, some err) => (p, b, some err)
        | (b, none) =>
          match c.AppendUnknown b p.unknown with
          | (b, some err) => (p, b, some err)
          | (b, none) => (p, b, none)) = marshalMessageSet.finish c p r := by
    rintro ⟨b', _ | err⟩
    · simp only [marshalMessageSet.finish]
      rcases c.AppendUnknown b' p.unknown with ⟨b'', _ | err⟩ <;> rfl
    · rfl
  unfold marshalMessageSet
  simp only [hflag, Bool.not_true, Bool.false_eq_true, if_false]
  rw [hfin]
  congr 1
  generalize p.extensions.getD [] = ext at hwf ⊢
  match ext, hwf with
  | [], _ => rfl
  | [e], hwf =>
    have h := sortedFields_perm hwf
    rw [List.map_singleton, List.perm_singleton] at h
    simp only [List.length_singleton, List.map_singleton, h]
  | _ :: _ :: _, _ => rfl

/-- When the marshal function of every field succeeds, the loop puts the envelope
of each field on the buffer, in the order of the list. -/
theorem marshalMessageSet.loop_of_succeeds (c : Env T V O U E) (opts : O)
    (xs : List (ExtensionField T V)) (hok : ∀ x ∈ xs, marshalSucceeds c opts x) (b : Bytes) :
    marshalMessageSet.loop c opts b xs = (xs.foldl (Spec.envelope c opts) b, none) := by
  induction xs generalizing b with
  | nil => rfl
  | cons x xs ih =>
    have hx := hok x (List.mem_cons_self x xs) (c.AppendFieldStart b (fieldNum c x))
    have hfield : marshalMessageSetField c b x opts = (Spec.envelope c opts b x, none) := by
      unfold marshalMessageSetField Spec.envelope
      unfold fieldNum at hx ⊢
      simp only
      generalize (c.getExtensionFieldInfo x.type).marshal _ _ _ _ = r at hx ⊢
      obtain ⟨b', e⟩ := r
      simp only at hx
      subst hx
      rfl
    rw [marshalMessageSet.loop, hfield, List.foldl_cons]
    exact ih (fun y hy => hok y (List.mem_cons_of_mem x hy)) _

/-- C1: with legacy support enabled, on a store whose keys are the field numbers of
its entries and whose marshal functions all succeed, `marshalMessageSet` returns
what `messageset.AppendUnknown` makes of the unknown tail on the buffer that holds
the input buffer followed by one envelope per entry, the entries taken in strictly
ascending order of field number; a store without entries adds no envelope. -/
theorem marshalMessageSet_sorted_envelopes [Inhabited T] [Inhabited V]
    (c : Env T V O U E) (b : Bytes) (p : Message T V) (opts : O)
    (hflag : c.ProtoLegacy = true) (hwf : (p.extensions.getD []).WF)
    (hkey : ∀ e ∈ p.extensions.getD [], e.1 = fieldNum c e.2)
    (hok : ∀ e ∈ p.extensions.getD [], marshalSucceeds c opts e.2) :
    ∃ L : List (ExtensionField T V),
      L.Perm ((p.extensions.getD []).map Prod.snd) ∧
      (L.map (fieldNum c)).Sorted (· < ·) ∧
      marshalMessageSet c b p opts =
        (p, c.AppendUnknown (L.foldl (Spec.envelope c opts) b) p.unknown) ∧
      (p.extensions.getD [] = [] →
        marshalMessageSet c b p opts = (p, c.AppendUnknown b p.unknown)) := by
  have hperm := sortedFields_perm hwf
  have hres : marshalMessageSet c b p opts =
      (p, c.AppendUnknown
        ((sortedFields (p.extensions.getD [])).foldl (Spec.envelope c opts) b) p.unknown) := by
    rw [marshalMessageSet_eq_finish c b p opts hflag hwf,
      marshalMessageSet.loop_of_succeeds c opts _ _ b]
    · rfl
    · intro x hx
      obtain ⟨e, he, rfl⟩ := List.mem_map.1 (hperm.subset hx)
      exact hok e he
  refine ⟨sortedFields (p.extensions.getD []), hperm, ?_, hres, ?_⟩
  · rw [sortedFields_fieldNum c hwf hkey]
    exact sortInts_strict hwf.1
  · intro hnil
    rw [hres, hnil]
    rfl

/-- The message with the keys 5, 2 and 9 satisfies the hypotheses of C1, and its
envelopes are emitted in the order 2, 5, 9. -/
theorem marshalMessageSet_sorted_envelopes_witness :
    ∃ L : List (ExtensionField Nat Bytes),
      L.Perm ((Demo.msg529.extensions.getD []).map Prod.snd) ∧
      (L.map (fieldNum Demo.env)).Sorted (· < ·) ∧
      marshalMessageSet Demo.env [] Demo.msg529 () =
        (Demo.msg529, Demo.env.AppendUnknown (L.foldl (Spec.envelope Demo.env ()) [])
          Demo.msg529.unknown) ∧
      (Demo.msg529.extensions.getD [] = [] →
        marshalMessageSet Demo.env [] Demo.msg529 () =
          (Demo.msg529, Demo.env.AppendUnknown [] Demo.msg529.unknown)) :=
  marshalMessageSet_sorted_envelopes Demo.env [] Demo.msg529 () rfl
    (by simp [Demo.msg529, Demo.ext529, Extensions.WF, isInt32])
    (by simp [Demo.msg529, Demo.ext529, fieldNum, Demo.env, Demo.info])
    (by
      intro e he b
      simp only [Demo.msg529, Demo.ext529, Option.getD_some, List.cons_append,
        List.nil_append, List.mem_cons, List.mem_singleton, List.not_mem_nil, or_false] at he
      rcases he with rfl | rfl | rfl <;> rfl)

/-- The bytes of the example: the envelopes of the fields 2, 5 and 9 in this order,
then the envelope of the unknown field 4. -/
theorem Demo.marshal_msg529 :
    (marshalMessageSet Demo.env [] Demo.msg529 ()).2 =
      ([11, 16, 2, 26, 1, 20, 12, 11, 16, 5, 26, 2, 50, 51, 12, 11, 16, 9, 26, 0, 12,
        11, 16, 4, 26, 1, 77, 12], none) := by
  decide

/-- C2: the bytes and the error returned by `marshalMessageSet` do not depend on
the order in which a well-formed store lists its entries: two listings of the same
entries, with the same buffer, tail, options and flag, give the same result,
whatever the number of entries and whether or not a marshal function fails. -/
theorem marshalMessageSet_order_independent [Inhabited T] [Inhabited V]
    (c : Env T V O U E) (b : Bytes) (ext₁ ext₂ : Extensions T V) (unknown : Bytes)
    (opts : O) (hwf : ext₁.WF) (hp : ext₁.Perm ext₂) :
    (marshalMessageSet c b ⟨some ext₁, unknown⟩ opts).2 =
      (marshalMessageSet c b ⟨some ext₂, unknown⟩ opts).2 := by
  cases hflag : c.ProtoLegacy with
  | false => simp [marshalMessageSet, hflag]
  | true =>
    have hwf₂ : ext₂.WF :=
      ⟨(hp.map Prod.fst).nodup_iff.1 hwf.1,
        fun k hk => hwf.2 k ((hp.map Prod.fst).symm.subset hk)⟩
    rw [marshalMessageSet_eq_finish c b ⟨some ext₁, unknown⟩ opts hflag hwf,
      marshalMessageSet_eq_finish c b ⟨some ext₂, unknown⟩ opts hflag hwf₂]
    simp only [Option.getD_some]
    rw [sortedFields_congr hp hwf]
    rcases marshalMessageSet.loop c opts b (sortedFields ext₂) with ⟨b', _ | err⟩ <;> rfl

/-- The two listings 5, 2, 9 and 9, 5, 2 of the example store give the same bytes. -/
theorem marshalMessageSet_order_independent_witness :
    (marshalMessageSet Demo.env [] Demo.msg529 ()).2 =
      (marshalMessageSet Demo.env [] Demo.msg952 ()).2 :=
  marshalMessageSet_order_independent Demo.env [] Demo.ext529 Demo.ext952 [34, 1, 77] ()
    (by simp [Demo.ext529, Extensions.WF, isInt32]) List.perm_append_comm

/-- The tail that the callback of `unmarshalMessageSet` leaves after a list of
unrecognized items: each item puts `AppendTag(num, BytesType)` and then its value
on the tail. -/
theorem messageset.deliver_unknown [DecidableEq E] (c : Env T V O U E) (opts : U)
    (perr : Option E) (items : List (Int × Bytes))
    (hunk : ∀ it ∈ items, ∀ ext,
      (c.unmarshalExtension it.2 it.1 c.BytesType ext opts).2 = some c.errUnknown)
    (s : Extensions T V × Bytes) :
    (messageset.deliver (unmarshalMessageSet.fn c opts) perr items s).2 = perr ∧
    (messageset.deliver (unmarshalMessageSet.fn c opts) perr items s).1.2 =
      items.foldl (fun u it => c.AppendTag u it.1 c.BytesType ++ it.2) s.2 := by
  induction items generalizing s with
  | nil => exact ⟨rfl, rfl⟩
  | cons it rest ih =>
    obtain ⟨num, v⟩ := it
    have h := hunk (num, v) (List.mem_cons_self _ _) s.1
    have hfn : unmarshalMessageSet.fn c opts num v s =
        (((c.unmarshalExtension v num c.BytesType s.1 opts).1,
          c.AppendTag s.2 num c.BytesType ++ v), none) := by
      unfold unmarshalMessageSet.fn
      generalize c.unmarshalExtension v num c.BytesType s.1 opts = r at h ⊢
      obtain ⟨ext, err⟩ := r
      simp only at h
      subst h
      simp
    rw [messageset.deliver, hfn]
    exact ih (fun it hit => hunk it (List.mem_cons_of_mem _ hit)) _

/-- When `AppendTag` appends, putting the tag and the value of each item on a tail
gives the tail followed by the tags and values in the order of the items. -/
theorem foldl_appendTag (c : Env T V O U E)
    (happ : ∀ u n t, c.AppendTag u n t = u ++ c.AppendTag [] n t)
    (items : List (Int × Bytes)) (u : Bytes) :
    items.foldl (fun u it => c.AppendTag u it.1 c.BytesType ++ it.2) u =
      u ++ (items.map fun it => c.AppendTag [] it.1 c.BytesType ++ it.2).flatten := by
  induction items generalizing u with
  | nil => simp
  | cons it rest ih =>
    rw [List.foldl_cons, ih, happ]
    simp

/-- C3: with legacy support enabled, when the parser delivers the items of an input
without an error of its own and the extension decoder reports each of them as
`errUnknown`, `unmarshalMessageSet` returns the length of the input and no error,
and the unknown tail becomes the old tail with `AppendTag(num, BytesType)` and the
value of each item put on it in the order of the items; when `AppendTag` appends,
this is the old tail followed by the tags and values. -/
theorem unmarshalMessageSet_unknown_items [DecidableEq E] (c : Env T V O U E)
    (b : Bytes) (p : Message T V) (opts : U) (items : List (Int × Bytes))
    (hflag : c.ProtoLegacy = true) (hscan : c.scan b true = (items, none))
    (hunk : ∀ it ∈ items, ∀ ext,
      (c.unmarshalExtension it.2 it.1 c.BytesType ext opts).2 = some c.errUnknown) :
    (unmarshalMessageSet c b p opts).2 = ((b.length : Int), none) ∧
    (unmarshalMessageSet c b p opts).1.unknown =
      items.foldl (fun u it => c.AppendTag u it.1 c.BytesType ++ it.2) p.unknown ∧
    ((∀ u n t, c.AppendTag u n t = u ++ c.AppendTag [] n t) →
      (unmarshalMessageSet c b p opts).1.unknown =
        p.unknown ++ (items.map fun it => c.AppendTag [] it.1 c.BytesType ++ it.2).flatten) := by
  have hrun := messageset.deliver_unknown c opts none items hunk
    (match p.extensions with
      | none => []
      | some ext => ext, p.unknown)
  have h1 : (unmarshalMessageSet c b p opts).2 = ((b.length : Int), none) := by
    simp only [unmarshalMessageSet, hflag, messageset.Unmarshal, hscan]
    simp [hrun.1]
  have h2 : (unmarshalMessageSet c b p opts).1.unknown =
      items.foldl (fun u it => c.AppendTag u it.1 c.BytesType ++ it.2) p.unknown := by
    simp only [unmarshalMessageSet, hflag, messageset.Unmarshal, hscan]
    simp [hrun.2]
  refine ⟨h1, h2, ?_⟩
  intro happ
  rw [h2]
  exact foldl_appendTag c happ items p.unknown

/-- The example input of two unknown items satisfies the hypotheses of C3; the tail
keeps the field 4 it had and receives the fields 4 and 12. -/
theorem unmarshalMessageSet_unknown_items_witness :
    (unmarshalMessageSet Demo.env Demo.input412 Demo.msg529 ()).2 =
      ((Demo.input412.length : Int), none) ∧
    (unmarshalMessageSet Demo.env Demo.input412 Demo.msg529 ()).1.unknown =
      [(4, [1, 77]), (12, [2, 1, 2])].foldl
        (fun u it => Demo.env.AppendTag u it.1 Demo.env.BytesType ++ it.2)
        Demo.msg529.unknown ∧
    ((∀ u n t, Demo.env.AppendTag u n t = u ++ Demo.env.AppendTag [] n t) →
      (unmarshalMessageSet Demo.env Demo.input412 Demo.msg529 ()).1.unknown =
        Demo.msg529.unknown ++
          ([(4, [1, 77]), (12, [2, 1, 2])].map fun it =>
            Demo.env.AppendTag [] it.1 Demo.env.BytesType ++ it.2).flatten) :=
  unmarshalMessageSet_unknown_items Demo.env Demo.input412 Demo.msg529 ()
    [(4, [1, 77]), (12, [2, 1, 2])] rfl (by decide)
    (by
      intro it hit ext
      simp only [List.mem_cons, List.mem_singleton, List.not_mem_nil, or_false] at hit
      rcases hit with rfl | rfl <;> rfl)

/-- The tail of the example after the two unknown items. -/
theorem Demo.unmarshal_input412 :
    (unmarshalMessageSet Demo.env Demo.input412 Demo.msg529 ()).1.unknown =
      [34, 1, 77, 34, 1, 77, 98, 2, 1, 2] := by
  decide

/-- C5: with legacy support disabled, `marshalMessageSet` returns the input buffer
as it was, with an error, and `unmarshalMessageSet` returns 0 with an error; both
leave the message as it was, a nil store included, and the result of
`unmarshalMessageSet` is the same for every parser and every extension decoder:
neither is consulted. -/
theorem legacy_disabled_rejects [Inhabited T] [Inhabited V] [DecidableEq E]
    (c : Env T V O U E) (b : Bytes) (p : Message T V) (mopts : O) (uopts : U)
    (hflag : c.ProtoLegacy = false) :
    marshalMessageSet c b p mopts =
      (p, b, some (c.errorsNew "no support for message_set_wire_format")) ∧
    unmarshalMessageSet c b p uopts =
      (p, 0, some (c.errorsNew "no support for message_set_wire_format")) ∧
    ∀ (scan : Bytes → Bool → List (Int × Bytes) × Option E)
      (dec : Bytes → Int → Nat → Extensions T V → U → Extensions T V × Option E),
      unmarshalMessageSet { c with scan := scan, unmarshalExtension := dec } b p uopts =
        (p, 0, some (c.errorsNew "no support for message_set_wire_format")) := by
  refine ⟨?_, ?_, ?_⟩
  · simp [marshalMessageSet, hflag]
  · simp [unmarshalMessageSet, hflag]
  · intro scan dec
    simp [unmarshalMessageSet, hflag]

/-- With the flag off the example message, and a message with a nil store, are
rejected and left as they were. -/
theorem legacy_disabled_rejects_witness :
    marshalMessageSet Demo.envOff [1, 2] ⟨none, [34, 1, 77]⟩ () =
      (⟨none, [34, 1, 77]⟩, [1, 2],
        some (Demo.envOff.errorsNew "no support for message_set_wire_format")) ∧
    unmarshalMessageSet Demo.envOff [1, 2] ⟨none, [34, 1, 77]⟩ () =
      (⟨none, [34, 1, 77]⟩, 0,
        some (Demo.envOff.errorsNew "no support for message_set_wire_format")) ∧
    ∀ (scan : Bytes → Bool → List (Int × Bytes) × Option Demo.Err)
      (dec : Bytes → Int → Nat → Extensions Nat Bytes → Unit →
        Extensions Nat Bytes × Option Demo.Err),
      unmarshalMessageSet { Demo.envOff with scan := scan, unmarshalExtension := dec }
          [1, 2] ⟨none, [34, 1, 77]⟩ () =
        (⟨none, [34, 1, 77]⟩, 0,
          some (Demo.envOff.errorsNew "no support for message_set_wire_format")) :=
  legacy_disabled_rejects Demo.envOff [1, 2] ⟨none, [34, 1, 77]⟩ () () rfl

/-- C6: with legacy support disabled, `sizeMessageSet` returns 0 for every message,
whatever its store and its tail hold, and leaves the message as it was. -/
theorem sizeMessageSet_disabled (c : Env T V O U E) (p : Message T V) (opts : O)
    (hflag : c.ProtoLegacy = false) : sizeMessageSet c p opts = (p, 0) := by
  simp [sizeMessageSet, hflag]

/-- With the flag off the size of the example message, whose store and tail are not
empty, is 0. -/
theorem sizeMessageSet_disabled_witness :
    sizeMessageSet Demo.envOff Demo.msg529 () = (Demo.msg529, 0) :=
  sizeMessageSet_disabled Demo.envOff Demo.msg529 () rfl

theorem wrapInt_wrapInt (a : Int) : wrapInt (wrapInt a) = wrapInt a := by
  unfold wrapInt; omega

/-- The accumulator of the loop of `sizeMessageSet`, up to the wrap of `int`: the
start value and the contributions of the fields that have a size function. -/
theorem sizeMessageSet.loop_eq (c : Env T V O U E) (opts : O) (ext : Extensions T V)
    (acc : Int) :
    wrapInt (ext.foldl (fun size kx =>
      match (c.getExtensionFieldInfo kx.2.type).size with
      | none => size
      | some f =>
        wrapInt (wrapInt (size + c.SizeField (c.DecodeTag
          (c.getExtensionFieldInfo kx.2.type).wiretag).1)
          + f kx.2.value (c.SizeTag c.FieldMessage) opts)) acc) =
      wrapInt (acc + ((ext.map Prod.snd).filterMap (Spec.fieldSize c opts)).sum) := by
  induction ext generalizing acc with
  | nil => simp
  | cons kx rest ih =>
    rw [List.foldl_cons, ih, List.map_cons, List.filterMap_cons]
    cases hsz : (c.getExtensionFieldInfo kx.2.type).size with
    | none => simp [Spec.fieldSize, hsz]
    | some f =>
      simp only [Spec.fieldSize, hsz, fieldNum, List.sum_cons]
      unfold wrapInt
      omega

/-- C7: with legacy support enabled, `sizeMessageSet` is the sum, in the arithmetic
of Go's `int`, of `SizeField(num) + size(value, SizeTag(FieldMessage), opts)` over
the fields that have a size function and of `SizeUnknown` of the tail; it is this
sum itself when the sum is an `int`; fields without a size function add nothing,
and the result is the same for every order in which the store is iterated. -/
theorem sizeMessageSet_eq_sum (c : Env T V O U E) (p : Message T V) (opts : O)
    (hflag : c.ProtoLegacy = true) :
    (sizeMessageSet c p opts).2 = wrapInt (Spec.size c opts p) ∧
    (isInt (Spec.size c opts p) → (sizeMessageSet c p opts).2 = Spec.size c opts p) ∧
    ∀ ext : Extensions T V, (p.extensions.getD []).Perm ext →
      (sizeMessageSet c ⟨some ext, p.unknown⟩ opts).2 = (sizeMessageSet c p opts).2 := by
  have key : ∀ q : Message T V, (sizeMessageSet c q opts).2 = wrapInt (Spec.size c opts q) := by
    intro q
    simp only [sizeMessageSet, hflag, Bool.not_true, Bool.false_eq_true, if_false, Spec.size]
    rw [← wrapInt_add_left, sizeMessageSet.loop_eq, wrapInt_add_left, zero_add]
  refine ⟨key p, fun h => by rw [key p, wrapInt_of_isInt h], ?_⟩
  intro ext hp
  rw [key, key]
  simp only [Spec.size, Option.getD_some]
  rw [((hp.map Prod.snd).filterMap (Spec.fieldSize c opts)).sum_eq]

/-- The size of the example message with the fields 5 and 6: the sum is an `int`,
and the other order of the store gives the same size. -/
theorem sizeMessageSet_eq_sum_witness :
    (sizeMessageSet Demo.env Demo.msg56 ()).2 = wrapInt (Spec.size Demo.env () Demo.msg56) ∧
    (isInt (Spec.size Demo.env () Demo.msg56) →
      (sizeMessageSet Demo.env Demo.msg56 ()).2 = Spec.size Demo.env () Demo.msg56) ∧
    ∀ ext : Extensions Nat Bytes, (Demo.msg56.extensions.getD []).Perm ext →
      (sizeMessageSet Demo.env ⟨some ext, Demo.msg56.unknown⟩ ()).2 =
        (sizeMessageSet Demo.env Demo.msg56 ()).2 :=
  sizeMessageSet_eq_sum Demo.env Demo.msg56 () rfl

/-- The size of the example message: 8 bytes for the field 5, none for the field 6,
7 bytes for the unknown field. -/
theorem Demo.size_msg56 :
    (sizeMessageSet Demo.env Demo.msg56 ()).2 = 15 ∧ Spec.size Demo.env () Demo.msg56 = 15 := by
  decide

/-- Items that the callback accepts are passed over: the parse goes on with the
rest of the items from the state they leave. -/
theorem messageset.deliver_append {σ : Type} (fn : Int → Bytes → σ → σ × Option E)
    (perr : Option E) (pre rest : List (Int × Bytes)) (s₀ s₁ : σ)
    (h : messageset.deliver fn none pre s₀ = (s₁, none)) :
    messageset.deliver fn perr (pre ++ rest) s₀ = messageset.deliver fn perr rest s₁ := by
  induction pre generalizing s₀ with
  | nil =>
    simp only [messageset.deliver, Prod.mk.injEq, and_true] at h
    rw [h, List.nil_append]
  | cons it pre ih =>
    obtain ⟨num, v⟩ := it
    rw [List.cons_append, messageset.deliver]
    rw [messageset.deliver] at h
    rcases hfn : fn num v s₀ with ⟨s, _ | err⟩
    · rw [hfn] at h
      exact ih s h
    · rw [hfn] at h
      simp at h

/-- C8: with legacy support enabled, when the items before an item were accepted by
the callback and the extension decoder returns for this item an error other than
`errUnknown`, the callback returns this error as it is and puts nothing on the
unknown tail, and `unmarshalMessageSet`, whose parser returns the error of its
callback, returns this error: the call fails. -/
theorem unmarshalMessageSet_decode_error_fatal [DecidableEq E] (c : Env T V O U E)
    (b : Bytes) (p : Message T V) (opts : U) (pre post : List (Int × Bytes)) (num : Int)
    (v : Bytes) (perr : Option E) (s₁ : Extensions T V × Bytes) (ext : Extensions T V)
    (e : E) (hflag : c.ProtoLegacy = true)
    (hscan : c.scan b true = (pre ++ (num, v) :: post, perr))
    (hpre : messageset.deliver (unmarshalMessageSet.fn c opts) none pre
      (p.extensions.getD [], p.unknown) = (s₁, none))
    (hdec : c.unmarshalExtension v num c.BytesType s₁.1 opts = (ext, some e))
    (hne : e ≠ c.errUnknown) :
    unmarshalMessageSet.fn c opts num v s₁ = ((ext, s₁.2), some e) ∧
    unmarshalMessageSet c b p opts = (⟨some ext, s₁.2⟩, (b.length : Int), some e) := by
  have hfn : unmarshalMessageSet.fn c opts num v s₁ = ((ext, s₁.2), some e) := by
    unfold unmarshalMessageSet.fn
    rw [hdec]
    simp [hne]
  refine ⟨hfn, ?_⟩
  have hinit : (match p.extensions with
      | none => []
      | some ext => ext) = p.extensions.getD [] := by
    cases p.extensions <;> rfl
  simp only [unmarshalMessageSet, hflag, messageset.Unmarshal, hscan, hinit]
  rw [messageset.deliver_append _ perr pre _ _ s₁ hpre, messageset.deliver, hfn]
  rfl

/-- In the example input the decoder fails on the second item, after the unknown
first item was put on the tail: the call returns the error of the decoder. -/
theorem unmarshalMessageSet_decode_error_fatal_witness :
    unmarshalMessageSet.fn Demo.env () 7 [1, 9] (Demo.ext529, [34, 1, 77, 34, 1, 77]) =
      ((Demo.ext529, [34, 1, 77, 34, 1, 77]), some Demo.Err.field) ∧
    unmarshalMessageSet Demo.env Demo.input472 Demo.msg529 () =
      (⟨some Demo.ext529, [34, 1, 77, 34, 1, 77]⟩, (Demo.input472.length : Int),
        some Demo.Err.field) :=
  unmarshalMessageSet_decode_error_fatal Demo.env Demo.input472 Demo.msg529 ()
    [(4, [1, 77])] [(2, [1, 20])] 7 [1, 9] none (Demo.ext529, [34, 1, 77, 34, 1, 77])
    Demo.ext529 Demo.Err.field rfl (by decide) rfl rfl (by decide)

/-- When `AppendTag` only appends, the callback of `unmarshalMessageSet` and the
parse that calls it only append to the unknown tail. -/
theorem messageset.deliver_tail_append [DecidableEq E] (c : Env T V O U E) (opts : U)
    (happ : ∀ u n t, u <+: c.AppendTag u n t) (perr : Option E)
    (items : List (Int × Bytes)) (s : Extensions T V × Bytes) :
    s.2 <+: (messageset.deliver (unmarshalMessageSet.fn c opts) perr items s).1.2 := by
  induction items generalizing s with
  | nil => exact List.prefix_refl _
  | cons it rest ih =>
    obtain ⟨num, v⟩ := it
    have hstep : s.2 <+: (unmarshalMessageSet.fn c opts num v s).1.2 := by
      unfold unmarshalMessageSet.fn
      rcases c.unmarshalExtension v num c.BytesType s.1 opts with ⟨ext, err⟩
      by_cases h : err = some c.errUnknown
      · simp only [h, if_true]
        exact (happ s.2 num c.BytesType).trans (List.prefix_append _ _)
      · simp only [h, if_false]
        exact List.prefix_refl _
    rw [messageset.deliver]
    rcases hfn : unmarshalMessageSet.fn c opts num v s with ⟨s', _ | err⟩
    · rw [hfn] at hstep
      exact hstep.trans (ih s')
    · rw [hfn] at hstep
      exact hstep

/-- C9: the unknown tail is only appended to. `sizeMessageSet` and
`marshalMessageSet` leave the tail of the message as it was, and after
`unmarshalMessageSet` the old tail is a prefix of the new one, with the flag on or
off and whether the call succeeds or fails, when `wire.AppendTag` only appends to
the buffer it is given. -/
theorem unknown_tail_append_only [Inhabited T] [Inhabited V] [DecidableEq E]
    (c : Env T V O U E) (b : Bytes) (p : Message T V) (mopts : O) (uopts : U)
    (happ : ∀ u n t, u <+: c.AppendTag u n t) :
    (sizeMessageSet c p mopts).1.unknown = p.unknown ∧
    (marshalMessageSet c b p mopts).1.unknown = p.unknown ∧
    p.unknown <+: (unmarshalMessageSet c b p uopts).1.unknown := by
  refine ⟨?_, ?_, ?_⟩
  · unfold sizeMessageSet
    split <;> rfl
  · unfold marshalMessageSet
    split
    · rfl
    · simp only
      split
      · rfl
      · split <;> rfl
  · unfold unmarshalMessageSet
    split
    · exact List.prefix_refl _
    · exact messageset.deliver_tail_append c uopts happ (c.scan b true).2 (c.scan b true).1
        (match p.extensions with
          | none => []
          | some ext => ext, p.unknown)

/-- The tail of the example message is a prefix of its tail after the example input,
on which the call fails. -/
theorem unknown_tail_append_only_witness :
    (sizeMessageSet Demo.env Demo.msg529 ()).1.unknown = Demo.msg529.unknown ∧
    (marshalMessageSet Demo.env Demo.input472 Demo.msg529 ()).1.unknown =
      Demo.msg529.unknown ∧
    Demo.msg529.unknown <+:
      (unmarshalMessageSet Demo.env Demo.input472 Demo.msg529 ()).1.unknown :=
  unknown_tail_append_only Demo.env Demo.input472 Demo.msg529 () ()
    (fun u _ _ => List.prefix_append u _)

/-- The parse of items of which the decoder decodes some and reports the others as
unknown, leaving the store as it is: no error, the unknown items on the tail in
their order, and an unchanged store when no item is known. -/
theorem messageset.deliver_registry [DecidableEq E] (c : Env T V O U E) (opts : U)
    (reg : Int → Bool) (items : List (Int × Bytes))
    (hunk : ∀ it ∈ items, reg it.1 = false → ∀ ext,
      c.unmarshalExtension it.2 it.1 c.BytesType ext opts = (ext, some c.errUnknown))
    (hrec : ∀ it ∈ items, reg it.1 = true → ∀ ext,
      (c.unmarshalExtension it.2 it.1 c.BytesType ext opts).2 = none)
    (perr : Option E) (s : Extensions T V × Bytes) :
    (messageset.deliver (unmarshalMessageSet.fn c opts) perr items s).2 = perr ∧
    (messageset.deliver (unmarshalMessageSet.fn c opts) perr items s).1.2 =
      (items.filter fun it => !reg it.1).foldl
        (fun u it => c.AppendTag u it.1 c.BytesType ++ it.2) s.2 ∧
    ((∀ it ∈ items, reg it.1 = false) →
      (messageset.deliver (unmarshalMessageSet.fn c opts) perr items s).1.1 = s.1) := by
  induction items generalizing s with
  | nil => exact ⟨rfl, rfl, fun _ => rfl⟩
  | cons it rest ih =>
    obtain ⟨num, v⟩ := it
    have ih' := ih (fun it hit => hunk it (List.mem_cons_of_mem _ hit))
      (fun it hit => hrec it (List.mem_cons_of_mem _ hit))
    cases hreg : reg num with
    | false =>
      have hfn : unmarshalMessageSet.fn c opts num v s =
          ((s.1, c.AppendTag s.2 num c.BytesType ++ v), none) := by
        unfold unmarshalMessageSet.fn
        rw [hunk (num, v) (List.mem_cons_self _ _) hreg s.1]
        simp
      rw [messageset.deliver, hfn]
      obtain ⟨h1, h2, h3⟩ := ih' (s.1, c.AppendTag s.2 num c.BytesType ++ v)
      refine ⟨h1, ?_, fun hall => ?_⟩
      · rw [h2]
        simp [List.filter, hreg]
      · exact h3 (fun it hit => hall it (List.mem_cons_of_mem _ hit))
    | true =>
      have h := hrec (num, v) (List.mem_cons_self _ _) hreg s.1
      have hfn : unmarshalMessageSet.fn c opts num v s =
          (((c.unmarshalExtension v num c.BytesType s.1 opts).1, s.2), none) := by
        unfold unmarshalMessageSet.fn
        generalize c.unmarshalExtension v num c.BytesType s.1 opts = r at h ⊢
        obtain ⟨ext, err⟩ := r
        simp only at h
        subst h
        simp
      rw [messageset.deliver, hfn]
      obtain ⟨h1, h2, -⟩ := ih' ((c.unmarshalExtension v num c.BytesType s.1 opts).1, s.2)
      refine ⟨h1, ?_, fun hall => ?_⟩
      · rw [h2]
        simp [List.filter, hreg]
      · have := hall (num, v) (List.mem_cons_self _ _)
        simp [hreg] at this

/-- The code of `unmarshalMessageSet` and `marshalMessageSet` around the
re-wrapping of the tail: an input whose items the decoder either decodes or reports
as unknown, leaving the store as it is, is decoded into an empty message without
error, and when `messageset.AppendUnknown` turns the tail that this leaves into the
bytes `orig`, re-encoding the message gives the envelopes of the decoded fields
followed by `orig`. -/
theorem roundtrip_of_appendUnknown [Inhabited T] [Inhabited V] [DecidableEq E]
    (c : Env T V O U E) (inp b orig : Bytes) (uopts : U) (mopts : O)
    (items : List (Int × Bytes)) (reg : Int → Bool)
    (hflag : c.ProtoLegacy = true) (hscan : c.scan inp true = (items, none))
    (hunk : ∀ it ∈ items, reg it.1 = false → ∀ ext,
      c.unmarshalExtension it.2 it.1 c.BytesType ext uopts = (ext, some c.errUnknown))
    (hrec : ∀ it ∈ items, reg it.1 = true → ∀ ext,
      (c.unmarshalExtension it.2 it.1 c.BytesType ext uopts).2 = none)
    (hwrap : ∀ b', c.AppendUnknown b'
      ((items.filter fun it => !reg it.1).foldl
        (fun u it => c.AppendTag u it.1 c.BytesType ++ it.2) []) = (b' ++ orig, none))
    (hwf : ((unmarshalMessageSet c inp ⟨none, []⟩ uopts).1.extensions.getD []).WF)
    (hmar : ∀ e ∈ (unmarshalMessageSet c inp ⟨none, []⟩ uopts).1.extensions.getD [],
      marshalSucceeds c mopts e.2) :
    (unmarshalMessageSet c inp ⟨none, []⟩ uopts).2 = ((inp.length : Int), none) ∧
    (unmarshalMessageSet c inp ⟨none, []⟩ uopts).1.unknown =
      (items.filter fun it => !reg it.1).foldl
        (fun u it => c.AppendTag u it.1 c.BytesType ++ it.2) [] ∧
    (marshalMessageSet c b (unmarshalMessageSet c inp ⟨none, []⟩ uopts).1 mopts).2 =
      ((sortedFields ((unmarshalMessageSet c inp ⟨none, []⟩ uopts).1.extensions.getD [])).foldl
        (Spec.envelope c mopts) b ++ orig, none) ∧
    ((∀ it ∈ items, reg it.1 = false) →
      (marshalMessageSet c b (unmarshalMessageSet c inp ⟨none, []⟩ uopts).1 mopts).2 =
        (b ++ orig, none)) := by
  obtain ⟨h1, h2, h3⟩ := messageset.deliver_registry c uopts reg items hunk hrec none ([], [])
  have hun : unmarshalMessageSet c inp ⟨none, []⟩ uopts =
      (⟨some (messageset.deliver (unmarshalMessageSet.fn c uopts) none items ([], [])).1.1,
        (messageset.deliver (unmarshalMessageSet.fn c uopts) none items ([], [])).1.2⟩,
        (inp.length : Int),
        (messageset.deliver (unmarshalMessageSet.fn c uopts) none items ([], [])).2) := by
    simp only [unmarshalMessageSet, hflag, messageset.Unmarshal, hscan]
    rfl
  have htail : (unmarshalMessageSet c inp ⟨none, []⟩ uopts).1.unknown =
      (items.filter fun it => !reg it.1).foldl
        (fun u it => c.AppendTag u it.1 c.BytesType ++ it.2) [] := by
    rw [hun]
    exact h2
  have hmarshal : (marshalMessageSet c b (unmarshalMessageSet c inp ⟨none, []⟩ uopts).1 mopts).2 =
      ((sortedFields ((unmarshalMessageSet c inp ⟨none, []⟩ uopts).1.extensions.getD [])).foldl
        (Spec.envelope c mopts) b ++ orig, none) := by
    rw [marshalMessageSet_eq_finish c b _ mopts hflag hwf,
      marshalMessageSet.loop_of_succeeds c mopts _ _ b]
    · simp only [marshalMessageSet.finish]
      rw [htail, hwrap]
    · intro x hx
      obtain ⟨e, he, rfl⟩ := List.mem_map.1 ((sortedFields_perm hwf).subset hx)
      exact hmar e he
  refine ⟨?_, htail, hmarshal, ?_⟩
  · rw [hun, h1]
  · intro hall
    rw [hmarshal]
    have hstore : (unmarshalMessageSet c inp ⟨none, []⟩ uopts).1.extensions.getD [] = [] := by
      rw [hun]
      exact h3 hall
    rw [hstore]
    rfl

/-- Decoding the example input into an empty message and encoding the message again
gives the input, byte for byte. -/
theorem Demo.roundtrip_input2412 :
    (marshalMessageSet Demo.env []
        (unmarshalMessageSet Demo.env Demo.input2412 ⟨none, []⟩ ()).1 ()).2 =
      (Demo.input2412, none) := by
  decide

end Protobuf

namespace Detrand

theorem toUint64_of_pos {n : Int} (h0 : 0 < n) (h1 : n < 2 ^ 63) : (toUint64 n : Int) = n := by
  unfold toUint64
  omega

theorem toInt_of_lt {x : Nat} (h : (x : Int) < 2 ^ 63) : toInt x = x := by
  unfold toInt
  omega

/-- C10: for every value of the seed `binHash` and every `int` `n > 0`, `Intn(n)` returns, without
panic, the remainder of the seed by `n` taken on unsigned 64-bit values; the
conversion of this remainder to `int` changes nothing, and the result is at least 0
and less than `n`. The result depends on the seed and on `n` only. -/
theorem Intn_eq_mod (binHash : Nat) (n : Int) (hpos : 0 < n) (hint : n < 2 ^ 63) :
    Intn binHash n = .ok ((binHash : Int) % n) ∧
    (toUint64 n : Int) = n ∧
    toInt (binHash % toUint64 n) = ((binHash % toUint64 n : Nat) : Int) ∧
    0 ≤ (binHash : Int) % n ∧ (binHash : Int) % n < n := by
  have hu := toUint64_of_pos hpos hint
  have hmod : ((binHash % toUint64 n : Nat) : Int) = (binHash : Int) % n := by
    rw [Int.natCast_mod, hu]
  have hlt : (binHash : Int) % n < n := Int.emod_lt_of_pos _ hpos
  have hge : 0 ≤ (binHash : Int) % n := Int.emod_nonneg _ (ne_of_gt hpos)
  have hconv : toInt (binHash % toUint64 n) = ((binHash % toUint64 n : Nat) : Int) :=
    toInt_of_lt (by rw [hmod]; omega)
  refine ⟨?_, hu, hconv, hge, hlt⟩
  have hne : toUint64 n ≠ 0 := by
    intro h0
    rw [h0] at hu
    simp at hu
    omega
  unfold Intn
  rw [if_neg (not_le.2 hpos), if_neg hne, hconv, hmod]

/-- For the seed 0xDEADBEEFCAFEF00D, `Intn(5)` is defined and lies in 0..4. -/
theorem Intn_eq_mod_witness :
    Intn 16045690984503111693 5 = .ok ((16045690984503111693 : Nat) % 5) ∧
    (toUint64 5 : Int) = 5 ∧
    toInt (16045690984503111693 % toUint64 5) =
      ((16045690984503111693 % toUint64 5 : Nat) : Int) ∧
    0 ≤ ((16045690984503111693 : Nat) : Int) % 5 ∧
    ((16045690984503111693 : Nat) : Int) % 5 < 5 :=
  Intn_eq_mod 16045690984503111693 5 (by decide) (by decide)

theorem toUint64_two : toUint64 2 = 2 := by decide

/-- C11: for every seed and every `int` `n`, `Intn(n)` panics exactly when `n <= 0`,
and the panic is the one of the guard, "invalid argument to Intn"; for `n > 0` the
divisor `uint64(n)` is not zero, so the division never panics. -/
theorem Intn_panics_iff (binHash : Nat) (n : Int) (hint : n < 2 ^ 63) :
    ((∃ msg, Intn binHash n = .error msg) ↔ n ≤ 0) ∧
    (Intn binHash n = .error "invalid argument to Intn" ↔ n ≤ 0) ∧
    (0 < n → toUint64 n ≠ 0) ∧
    Intn binHash n ≠ .error "runtime error: integer divide by zero" := by
  have hdiv : 0 < n → toUint64 n ≠ 0 := by
    intro hpos h0
    have hu := toUint64_of_pos hpos hint
    rw [h0] at hu
    simp at hu
    omega
  by_cases hn : n ≤ 0
  · have hval : Intn binHash n = .error "invalid argument to Intn" := by
      unfold Intn
      rw [if_pos hn]
    refine ⟨⟨fun _ => hn, fun _ => ⟨_, hval⟩⟩, ⟨fun _ => hn, fun _ => hval⟩, hdiv, ?_⟩
    rw [hval]
    intro h
    have hs : "invalid argument to Intn" = "runtime error: integer divide by zero" :=
      Except.error.inj h
    exact absurd hs (by decide)
  · have hval : Intn binHash n = .ok (toInt (binHash % toUint64 n)) := by
      unfold Intn
      rw [if_neg hn, if_neg (hdiv (not_le.1 hn))]
    refine ⟨⟨?_, fun h => absurd h hn⟩, ⟨?_, fun h => absurd h hn⟩, hdiv, ?_⟩
    · rintro ⟨msg, h⟩
      rw [hval] at h
      cases h
    · intro h
      rw [hval] at h
      cases h
    · rw [hval]
      intro h
      cases h

/-- The calls `Intn(0)` and `Intn(-3)` panic with the message of the guard. -/
theorem Intn_panics_iff_witness :
    (((∃ msg, Intn 16045690984503111693 0 = .error msg) ↔ (0 : Int) ≤ 0) ∧
      (Intn 16045690984503111693 0 = .error "invalid argument to Intn" ↔ (0 : Int) ≤ 0) ∧
      ((0 : Int) < 0 → toUint64 0 ≠ 0) ∧
      Intn 16045690984503111693 0 ≠ .error "runtime error: integer divide by zero") ∧
    Intn 16045690984503111693 (-3) = .error "invalid argument to Intn" :=
  ⟨Intn_panics_iff 16045690984503111693 0 (by decide),
    ((Intn_panics_iff 16045690984503111693 (-3) (by decide)).2.1).2 (by decide)⟩

/-- C17: `Bool()` is true exactly when the seed is even, so it is the same for two
seeds with the same lowest bit, and it is true exactly when `Intn(2)` is 0. -/
theorem Bool_lowest_bit (h₁ h₂ : Nat) :
    (Bool h₁ = true ↔ h₁ % 2 = 0) ∧
    (h₁ % 2 = h₂ % 2 → Bool h₁ = Bool h₂) ∧
    (Bool h₁ = true ↔ Intn h₁ 2 = .ok 0) := by
  have hb : ∀ h : Nat, (Bool h = true ↔ h % 2 = 0) := by
    intro h
    simp [Bool]
  have hI : Intn h₁ 2 = .ok ((h₁ % 2 : Nat) : Int) := by
    unfold Intn
    rw [if_neg (by decide), toUint64_two, if_neg (by decide), toInt_of_lt (by omega)]
  refine ⟨hb h₁, ?_, ?_⟩
  · intro h
    unfold Bool
    rw [h]
  · rw [hb h₁, hI, Except.ok.injEq]
    omega

/-- With the seed 0 the function `Bool` does not return false, as C12 states it: 0 is
even. -/
theorem Bool_zero_seed_counterexample : ¬ (Bool 0 = false) := by
  decide

/-- C12, amended: when the executable cannot be located the seed is 0, and with the
seed 0 `Bool()` returns true. -/
theorem Bool_zero_seed {F E : Type} (os : OS F E) (e : E)
    (hexe : os.Executable = .error e) :
    binaryHash os = 0 ∧ Bool (binaryHash os) = true ∧ Bool 0 = true := by
  have h0 : binaryHash os = 0 := by
    unfold binaryHash
    rw [hexe]
  refine ⟨h0, ?_, by decide⟩
  rw [h0]
  decide

/-- On the file system without executable the seed is 0 and `Bool()` is true. -/
theorem Bool_zero_seed_witness :
    binaryHash Demo.noExecutable = 0 ∧ Bool (binaryHash Demo.noExecutable) = true ∧
      Bool 0 = true :=
  Bool_zero_seed Demo.noExecutable "not supported" rfl

/-- C13: with the seed 0, `Intn(n)` returns 0 for every bound `n` that `Intn` accepts,
that is for every `int` `n > 0`. -/
theorem Intn_zero_seed (n : Int) (hpos : 0 < n) (hint : n < 2 ^ 63) : Intn 0 n = .ok 0 := by
  have hne : toUint64 n ≠ 0 := by
    intro h0
    have hu := toUint64_of_pos hpos hint
    rw [h0] at hu
    simp at hu
    omega
  unfold Intn
  rw [if_neg (not_le.2 hpos), if_neg hne, Nat.zero_mod]
  rfl

/-- With the seed 0, `Intn(5)` is 0. -/
theorem Intn_zero_seed_witness : Intn 0 5 = .ok 0 :=
  Intn_zero_seed 5 (by decide) (by decide)

/-- A sample read that fails, in any iteration that the loop still has to run, ends
the loop with 0, whatever the hash holds by then. -/
theorem binaryHash.loop_of_read_fails {F E : Type} (os : OS F E) (f : F) (size : Int)
    (j : Nat) (hfail : ∀ buf, ∃ e, os.ReadAt f buf (sampleOffset size j) = .error e)
    (n i : Nat) (hi : i ≤ j) (hj : j < i + n) (buf : Protobuf.Bytes) (h : Nat) :
    binaryHash.loop os f size n i buf h = 0 := by
  induction n generalizing i buf h with
  | zero => omega
  | succ n ih =>
    rw [binaryHash.loop]
    rcases hread : os.ReadAt f buf (sampleOffset size i) with e | r
    · rfl
    · have hne : i ≠ j := by
        rintro rfl
        obtain ⟨e, he⟩ := hfail buf
        rw [he] at hread
        cases hread
      exact ih (i + 1) (by omega) (by omega) r _

/-- C14: when locating the executable fails, or opening it, or reading its size, or
any one of the eight sample reads, `binaryHash` returns 0, whatever was fed to the
hash before the failure; its result is a number, never an error. -/
theorem binaryHash_failure_zero {F E : Type} (os : OS F E)
    (hfail : (∃ e, os.Executable = .error e) ∨
      (∃ s e, os.Executable = .ok s ∧ os.Open s = .error e) ∨
      (∃ s f e, os.Executable = .ok s ∧ os.Open s = .ok f ∧ os.Stat f = .error e) ∨
      (∃ s f size i, os.Executable = .ok s ∧ os.Open s = .ok f ∧ os.Stat f = .ok size ∧
        i < numSamples ∧ ∀ buf, ∃ e, os.ReadAt f buf (sampleOffset size i) = .error e)) :
    binaryHash os = 0 := by
  unfold binaryHash
  rcases hfail with ⟨e, h1⟩ | ⟨s, e, h1, h2⟩ | ⟨s, f, e, h1, h2, h3⟩ |
    ⟨s, f, size, i, h1, h2, h3, hi, h4⟩
  · rw [h1]
  · rw [h1]
    simp only
    rw [h2]
  · rw [h1]
    simp only
    rw [h2]
    simp only
    rw [h3]
  · rw [h1]
    simp only
    rw [h2]
    simp only
    rw [h3]
    exact binaryHash.loop_of_read_fails os f size i h4 numSamples 0 (Nat.zero_le i)
      (by omega) _ _

theorem Demo.image512_length : (Demo.image512.length : Int) = 512 := by
  simp [Demo.image512]

theorem Demo.image504_length : (Demo.image504.length : Int) = 504 := by
  simp [Demo.image504]

/-- On the file system of an image a read of 64 bytes at an offset that is not
negative succeeds exactly when it ends within the image. -/
theorem Demo.ofImage_readAt (image buf : Protobuf.Bytes) (off : Int) (h0 : 0 ≤ off) :
    (∃ r, (Demo.ofImage image).ReadAt () buf off = .ok r) ↔
      off + 64 ≤ (image.length : Int) := by
  show (∃ r, (if 0 ≤ off ∧ off + 64 ≤ (image.length : Int) then
    Except.ok ((image.drop off.toNat).take 64) else Except.error "EOF") = Except.ok r) ↔ _
  by_cases h : off + 64 ≤ (image.length : Int)
  · rw [if_pos ⟨h0, h⟩]
    exact ⟨fun _ => h, fun _ => ⟨_, rfl⟩⟩
  · rw [if_neg (fun hc => h hc.2)]
    refine ⟨?_, fun hc => absurd hc h⟩
    rintro ⟨r, hr⟩
    cases hr

/-- On the file system of an image a read that ends within the image returns the
64 bytes from its offset on. -/
theorem Demo.ofImage_readAt_ok (image buf : Protobuf.Bytes) (off : Int) (h0 : 0 ≤ off)
    (h : off + 64 ≤ (image.length : Int)) :
    (Demo.ofImage image).ReadAt () buf off = .ok ((image.drop off.toNat).take 64) := by
  show (if 0 ≤ off ∧ off + 64 ≤ (image.length : Int) then
    Except.ok ((image.drop off.toNat).take 64) else Except.error "EOF") = _
  rw [if_pos ⟨h0, h⟩]

/-- On the file system of an image a read that runs past the end of the image
fails. -/
theorem Demo.ofImage_readAt_fails (image buf : Protobuf.Bytes) (off : Int)
    (h : (image.length : Int) < off + 64) :
    (Demo.ofImage image).ReadAt () buf off = .error "EOF" := by
  show (if 0 ≤ off ∧ off + 64 ≤ (image.length : Int) then
    Except.ok ((image.drop off.toNat).take 64) else Except.error "EOF") = _
  rw [if_neg (fun hc => absurd hc.2 (not_le.2 h))]

theorem Demo.ofImage_stat (image : Protobuf.Bytes) :
    (Demo.ofImage image).Stat () = .ok (image.length : Int) :=
  rfl

/-- A window that ends within the image has 64 bytes. -/
theorem sample_length (image : Protobuf.Bytes) (size : Int) (i : Nat)
    (h0 : 0 ≤ sampleOffset size i) (h : sampleOffset size i + 64 ≤ (image.length : Int)) :
    (sample image size i).length = 64 := by
  unfold sample
  rw [List.length_take, List.length_drop]
  omega

/-- On an image of 504 bytes the last sample read fails, after seven samples were
fed to the hash, and the seed is 0. -/
theorem binaryHash_failure_zero_witness : binaryHash (Demo.ofImage Demo.image504) = 0 :=
  binaryHash_failure_zero (Demo.ofImage Demo.image504)
    (Or.inr (Or.inr (Or.inr ⟨"exe", (), 504, 7, rfl, rfl,
      (Demo.ofImage_stat Demo.image504).trans (congrArg Except.ok Demo.image504_length),
      by decide,
      fun buf => ⟨"EOF", Demo.ofImage_readAt_fails Demo.image504 buf _
        (by rw [Demo.image504_length]; decide)⟩⟩)))

/-- The hash of the one byte `a` (97) is the value 0xaf63bd4c8601b7be of the tables of
FNV-1, and the hash of the empty string is the start value. -/
theorem Spec.fnv1_golden :
    Spec.fnv1 [97] = 12638153115695167422 ∧ Spec.fnv1 [] = 14695981039346656037 := by
  decide

/-- Writing a byte string to the hash is writing its parts one after the other. -/
theorem fnvWrite_append (h : Nat) (a b : Protobuf.Bytes) :
    fnvWrite h (a ++ b) = fnvWrite (fnvWrite h a) b :=
  List.foldl_append _ _ _ _

theorem putUint64_length (v : Nat) : (putUint64 v).length = 8 := by
  simp [putUint64]

/-- Without overflow of `int64` the offset of the sample `i` is `i * size / 8`,
rounded down. -/
theorem sampleOffset_eq (size : Int) (i : Nat) (h0 : 0 ≤ size) (hnov : 7 * size < 2 ^ 63)
    (hi : i < numSamples) : sampleOffset size i = (i : Int) * size / 8 := by
  have hi8 : i < 8 := hi
  have hprod : (i : Int) * size ≤ 7 * size :=
    Int.mul_le_mul_of_nonneg_right (by omega) h0
  have hnn : 0 ≤ (i : Int) * size := Int.mul_nonneg (by omega) h0
  have hwrap : toInt64 ((i : Int) * size) = (i : Int) * size := by
    unfold toInt64
    generalize (i : Int) * size = x at hprod hnn
    omega
  unfold sampleOffset
  rw [hwrap, Int.tdiv_eq_ediv hnn (by decide)]
  rfl

/-- When the reads of the iterations that the loop still has to run return the
samples of an image, the loop writes these samples to the hash in the order of
their index and returns the hash. -/
theorem binaryHash.loop_of_reads {F E : Type} (os : OS F E) (f : F) (size : Int)
    (image : Protobuf.Bytes) (n i : Nat)
    (hread : ∀ j, i ≤ j → j < i + n → ∀ buf,
      os.ReadAt f buf (sampleOffset size j) = .ok (sample image size j))
    (buf : Protobuf.Bytes) (h : Nat) :
    binaryHash.loop os f size n i buf h =
      fnvWrite h (((List.range' i n).map (sample image size)).flatten) := by
  induction n generalizing i buf h with
  | zero => rfl
  | succ n ih =>
    rw [binaryHash.loop, hread i (Nat.le_refl i) (by omega) buf]
    simp only
    rw [ih (i + 1) (fun j h1 h2 buf => hread j (by omega) (by omega) buf), List.range'_succ,
      List.map_cons, List.flatten_cons, fnvWrite_append]

/-- C15: when locating and opening the executable and reading its size `s` succeed
and the eight reads return the 64 bytes of the image at the offsets of the loop,
`binaryHash` is the 64-bit FNV-1 hash of the 8 bytes of `s`, lowest first, followed
by the samples 0 to 7 in this order; the offset of the sample `i` is `i * s / 8`
rounded down, and 520 bytes are hashed. -/
theorem binaryHash_eq_fnv1 {F E : Type} (os : OS F E) (s : String) (f : F)
    (image : Protobuf.Bytes) (size : Int)
    (hexe : os.Executable = .ok s) (hopen : os.Open s = .ok f)
    (hstat : os.Stat f = .ok size) (hsize : size = (image.length : Int))
    (hnov : 7 * size < 2 ^ 63)
    (hread : ∀ i, i < numSamples → ∀ buf,
      os.ReadAt f buf (sampleOffset size i) = .ok (sample image size i))
    (hlen : ∀ i, i < numSamples → (sample image size i).length = 64) :
    binaryHash os = Spec.fnv1 (Spec.hashed image size) ∧
    (∀ i, i < numSamples → sampleOffset size i = (i : Int) * size / 8) ∧
    (∀ i, i < numSamples →
      sample image size i = (image.drop (i * image.length / 8)).take 64) ∧
    (Spec.hashed image size).length = 520 := by
  have h0 : 0 ≤ size := by rw [hsize]; exact Int.natCast_nonneg _
  have hoff : ∀ i, i < numSamples → sampleOffset size i = (i : Int) * size / 8 :=
    fun i hi => sampleOffset_eq size i h0 hnov hi
  refine ⟨?_, hoff, ?_, ?_⟩
  · unfold binaryHash
    rw [hexe]
    simp only
    rw [hopen]
    simp only
    rw [hstat]
    simp only
    rw [binaryHash.loop_of_reads os f size image numSamples 0
      (fun j _ hj buf => hread j (by omega) buf)]
    unfold Spec.fnv1 Spec.hashed
    rw [fnvWrite_append, List.take_left' (putUint64_length _), List.range_eq_range']
    rfl
  · intro i hi
    unfold sample
    rw [hoff i hi, hsize]
    have hcast : (i : Int) * (image.length : Int) / 8 = ((i * image.length / 8 : Nat) : Int) := by
      push_cast
      rfl
    rw [hcast, Int.toNat_ofNat]
  · unfold Spec.hashed
    have hr : List.range 8 = [0, 1, 2, 3, 4, 5, 6, 7] := by decide
    rw [hr]
    simp only [List.length_append, putUint64_length, List.map_cons, List.map_nil,
      List.flatten_cons, List.flatten_nil, List.length_nil]
    rw [hlen 0 (by decide), hlen 1 (by decide), hlen 2 (by decide), hlen 3 (by decide),
      hlen 4 (by decide), hlen 5 (by decide), hlen 6 (by decide), hlen 7 (by decide)]

/-- The image of 512 bytes satisfies the hypotheses of C15: all reads succeed and
return windows of 64 bytes of the image. -/
theorem binaryHash_eq_fnv1_witness :
    binaryHash (Demo.ofImage Demo.image512) =
      Spec.fnv1 (Spec.hashed Demo.image512 512) ∧
    (∀ i, i < numSamples → sampleOffset 512 i = (i : Int) * 512 / 8) ∧
    (∀ i, i < numSamples →
      sample Demo.image512 512 i =
        (Demo.image512.drop (i * Demo.image512.length / 8)).take 64) ∧
    (Spec.hashed Demo.image512 512).length = 520 :=
  binaryHash_eq_fnv1 (Demo.ofImage Demo.image512) "exe" () Demo.image512 512 rfl rfl
    ((Demo.ofImage_stat Demo.image512).trans (congrArg Except.ok Demo.image512_length))
    Demo.image512_length.symm (by decide)
    (by
      intro i hi buf
      have hi8 : i < 8 := hi
      exact Demo.ofImage_readAt_ok Demo.image512 buf _
        (by interval_cases i <;> decide)
        (by rw [Demo.image512_length]; interval_cases i <;> decide))
    (by
      intro i hi
      have hi8 : i < 8 := hi
      exact sample_length Demo.image512 512 i
        (by interval_cases i <;> decide)
        (by rw [Demo.image512_length]; interval_cases i <;> decide))

/-- C19: on a file whose reads of 64 bytes succeed exactly when they end within its
`s` bytes, with `s` small enough for `7 * s` to be an `int64`, the eight sample reads
all succeed exactly when `s >= 505`; for `s < 505`, 0 included, `binaryHash` returns
0, and for `s >= 505` every sample read ends within the file. -/
theorem binaryHash_small_executable {F E : Type} (os : OS F E) (s : String) (f : F)
    (size : Int) (hexe : os.Executable = .ok s) (hopen : os.Open s = .ok f)
    (hstat : os.Stat f = .ok size) (h0 : 0 ≤ size) (hnov : 7 * size < 2 ^ 63)
    (hmodel : ∀ buf off, 0 ≤ off →
      ((∃ r, os.ReadAt f buf off = .ok r) ↔ off + 64 ≤ size)) :
    ((∀ i, i < numSamples → ∀ buf, ∃ r, os.ReadAt f buf (sampleOffset size i) = .ok r) ↔
      505 ≤ size) ∧
    (size < 505 → binaryHash os = 0) ∧
    (505 ≤ size → ∀ i, i < numSamples →
      0 ≤ sampleOffset size i ∧ sampleOffset size i + 64 ≤ size) := by
  have hnn : ∀ i, i < numSamples → 0 ≤ sampleOffset size i := by
    intro i hi
    rw [sampleOffset_eq size i h0 hnov hi]
    exact Int.ediv_nonneg (Int.mul_nonneg (Int.natCast_nonneg i) h0) (by decide)
  have hmono : ∀ i, i < numSamples → sampleOffset size i ≤ sampleOffset size 7 := by
    intro i hi
    have hi8 : i < 8 := hi
    rw [sampleOffset_eq size i h0 hnov hi, sampleOffset_eq size 7 h0 hnov (by decide)]
    exact Int.ediv_le_ediv (by decide) (Int.mul_le_mul_of_nonneg_right (by omega) h0)
  have hlast : sampleOffset size 7 + 64 ≤ size ↔ 505 ≤ size := by
    rw [sampleOffset_eq size 7 h0 hnov (by decide)]
    simp only [Nat.cast_ofNat]
    omega
  have hall : 505 ≤ size → ∀ i, i < numSamples →
      0 ≤ sampleOffset size i ∧ sampleOffset size i + 64 ≤ size := by
    intro hs i hi
    have h7 := hlast.2 hs
    have hm := hmono i hi
    exact ⟨hnn i hi, by omega⟩
  refine ⟨⟨?_, ?_⟩, ?_, hall⟩
  · intro h
    exact hlast.1 ((hmodel [] _ (hnn 7 (by decide))).1 (h 7 (by decide) []))
  · intro hs i hi buf
    exact (hmodel buf _ (hall hs i hi).1).2 (hall hs i hi).2
  · intro hs
    have hfail : ∀ buf, ∃ e, os.ReadAt f buf (sampleOffset size 7) = .error e := by
      intro buf
      rcases hread : os.ReadAt f buf (sampleOffset size 7) with e | r
      · exact ⟨e, rfl⟩
      · have := hlast.1 ((hmodel buf _ (hnn 7 (by decide))).1 ⟨r, hread⟩)
        omega
    unfold binaryHash
    rw [hexe]
    simp only
    rw [hopen]
    simp only
    rw [hstat]
    exact binaryHash.loop_of_read_fails os f size 7 hfail numSamples 0 (Nat.zero_le 7)
      (by decide) _ _

/-- The image of 504 bytes satisfies the hypotheses of C19: it is one byte short
of the eight samples. -/
theorem binaryHash_small_executable_witness :
    ((∀ i, i < numSamples → ∀ buf, ∃ r,
        (Demo.ofImage Demo.image504).ReadAt () buf (sampleOffset 504 i) = .ok r) ↔
      (505 : Int) ≤ 504) ∧
    ((504 : Int) < 505 → binaryHash (Demo.ofImage Demo.image504) = 0) ∧
    ((505 : Int) ≤ 504 → ∀ i, i < numSamples →
      0 ≤ sampleOffset 504 i ∧ sampleOffset 504 i + 64 ≤ 504) :=
  binaryHash_small_executable (Demo.ofImage Demo.image504) "exe" () 504 rfl rfl
    ((Demo.ofImage_stat Demo.image504).trans (congrArg Except.ok Demo.image504_length))
    (by decide) (by decide)
    (by
      intro buf off hoff
      rw [Demo.ofImage_readAt Demo.image504 buf off hoff, Demo.image504_length])

end Detrand

namespace Protobuf

variable {T V O U E : Type}

/-- The listing of a store in strictly ascending order of field number is the one
that the loop over the sorted keys visits. -/
theorem sortedFields_unique [Inhabited T] [Inhabited V] (c : Env T V O U E)
    {ext : Extensions T V} (hwf : ext.WF) (hkey : ∀ e ∈ ext, e.1 = fieldNum c e.2)
    {L : List (ExtensionField T V)} (hperm : L.Perm (ext.map Prod.snd))
    (hsorted : (L.map (fieldNum c)).Sorted (· < ·)) : L = sortedFields ext := by
  haveI : IsAntisymm (ExtensionField T V) (fun x y => fieldNum c x < fieldNum c y) :=
    ⟨fun _ _ h₁ h₂ => absurd h₁ (lt_asymm h₂)⟩
  have h₁ : L.Sorted (fun x y => fieldNum c x < fieldNum c y) := List.pairwise_map.1 hsorted
  have h₂ : (sortedFields ext).Sorted (fun x y => fieldNum c x < fieldNum c y) := by
    apply List.pairwise_map.1
    rw [sortedFields_fieldNum c hwf hkey]
    exact sortInts_strict hwf.1
  exact List.eq_of_perm_of_sorted (hperm.trans (sortedFields_perm hwf).symm) h₁ h₂

/-- The loop passes over fields whose marshal functions succeed, leaving their
envelopes on the buffer, and goes on with the fields after them. -/
theorem marshalMessageSet.loop_append (c : Env T V O U E) (opts : O)
    (pre rest : List (ExtensionField T V)) (hpre : ∀ y ∈ pre, marshalSucceeds c opts y)
    (b : Bytes) :
    marshalMessageSet.loop c opts b (pre ++ rest) =
      marshalMessageSet.loop c opts (pre.foldl (Spec.envelope c opts) b) rest := by
  induction pre generalizing b with
  | nil => rfl
  | cons y pre ih =>
    have hy := marshalMessageSet.loop_of_succeeds c opts [y]
      (fun z hz => hpre z (by rw [List.mem_singleton.1 hz]; exact List.mem_cons_self _ _)) b
    rw [marshalMessageSet.loop] at hy
    rw [List.cons_append, marshalMessageSet.loop, List.foldl_cons]
    rcases hf : marshalMessageSetField c b y opts with ⟨b₁, _ | e⟩
    · rw [hf] at hy
      simp only [marshalMessageSet.loop, List.foldl_cons, List.foldl_nil, Prod.mk.injEq,
        and_true] at hy
      rw [← hy]
      exact ih (fun z hz => hpre z (List.mem_cons_of_mem _ hz)) b₁
    · rw [hf] at hy
      simp at hy

/-- C16: with legacy support enabled, when the entries of a store in strictly
ascending order of field number are `pre`, then `x`, then `post`, the marshal
functions of `pre` succeed and the marshal function of `x`, called on the buffer
that holds the envelopes of `pre` and the start marker of `x`, returns the buffer
`b'` and an error, `marshalMessageSet` returns `b'` and this error: nothing is
rolled back, and neither the end marker of `x` nor the entries of `post` nor the
unknown tail are put on the buffer. -/
theorem marshalMessageSet_first_failure [Inhabited T] [Inhabited V] (c : Env T V O U E)
    (b : Bytes) (p : Message T V) (opts : O) (pre post : List (ExtensionField T V))
    (x : ExtensionField T V) (b' : Bytes) (err : E)
    (hflag : c.ProtoLegacy = true) (hwf : (p.extensions.getD []).WF)
    (hkey : ∀ e ∈ p.extensions.getD [], e.1 = fieldNum c e.2)
    (hperm : (pre ++ x :: post).Perm ((p.extensions.getD []).map Prod.snd))
    (hsorted : ((pre ++ x :: post).map (fieldNum c)).Sorted (· < ·))
    (hpre : ∀ y ∈ pre, marshalSucceeds c opts y)
    (hx : (c.getExtensionFieldInfo x.type).marshal
      (c.AppendFieldStart (pre.foldl (Spec.envelope c opts) b) (fieldNum c x)) x.value
      (c.EncodeTag c.FieldMessage c.BytesType) opts = (b', some err)) :
    marshalMessageSet c b p opts = (p, b', some err) := by
  have hfield : marshalMessageSetField c (pre.foldl (Spec.envelope c opts) b) x opts =
      (b', some err) := by
    unfold marshalMessageSetField
    unfold fieldNum at hx
    simp only
    rw [hx]
  rw [marshalMessageSet_eq_finish c b p opts hflag hwf,
    ← sortedFields_unique c hwf hkey hperm hsorted,
    marshalMessageSet.loop_append c opts pre _ hpre b, marshalMessageSet.loop, hfield]
  rfl

/-- In the example store 9, 7, 5 the field 7 fails after the envelope of the field 5
and its own start marker: the buffer ends with what its marshal function wrote. -/
theorem marshalMessageSet_first_failure_witness :
    marshalMessageSet Demo.env [] Demo.msg975 () =
      (Demo.msg975, [11, 16, 5, 26, 2, 50, 51, 12, 11, 16, 7, 26], some Demo.Err.field) :=
  marshalMessageSet_first_failure Demo.env [] Demo.msg975 () [Demo.field5] [Demo.field9]
    Demo.field7 [11, 16, 5, 26, 2, 50, 51, 12, 11, 16, 7, 26] Demo.Err.field rfl
    (by simp [Demo.msg975, Demo.ext975, Extensions.WF, isInt32])
    (by simp [Demo.msg975, Demo.ext975, fieldNum, Demo.env, Demo.info])
    (List.reverse_perm [Demo.field9, Demo.field7, Demo.field5])
    (by decide)
    (by
      intro y hy b
      rw [List.mem_singleton.1 hy]
      rfl)
    rfl

/-- With legacy support enabled `sizeMessageSet` is the sum of the specification,
in the arithmetic of `int`. -/
theorem sizeMessageSet_eq_wrapInt (c : Env T V O U E) (p : Message T V) (opts : O)
    (hflag : c.ProtoLegacy = true) :
    (sizeMessageSet c p opts).2 = wrapInt (Spec.size c opts p) := by
  simp only [sizeMessageSet, hflag, Bool.not_true, Bool.false_eq_true, if_false, Spec.size]
  rw [← wrapInt_add_left, sizeMessageSet.loop_eq, wrapInt_add_left, zero_add]

/-- When the sizes of the collaborators match what they append, a loop that ends
without error has added to the buffer the contributions of its fields to the
size. -/
theorem marshalMessageSet.loop_length (c : Env T V O U E) (opts : O)
    (hfield : ∀ b₁ b₂ num, ((c.AppendFieldStart b₁ num).length : Int) - b₁.length +
      (((c.AppendFieldEnd b₂).length : Int) - b₂.length) = c.SizeField num)
    (xs : List (ExtensionField T V)) (hsize : ∀ x ∈ xs, sizeMatchesMarshal c opts x)
    (b out : Bytes) (hok : marshalMessageSet.loop c opts b xs = (out, none)) :
    (out.length : Int) = b.length + (xs.filterMap (Spec.fieldSize c opts)).sum := by
  induction xs generalizing b with
  | nil =>
    simp only [marshalMessageSet.loop, Prod.mk.injEq, and_true] at hok
    simp [hok]
  | cons x xs ih =>
    obtain ⟨f, hf, hm⟩ := hsize x (List.mem_cons_self _ _)
    rw [marshalMessageSet.loop] at hok
    unfold marshalMessageSetField at hok
    simp only at hok
    rcases hmar : (c.getExtensionFieldInfo x.type).marshal
        (c.AppendFieldStart b (c.DecodeTag (c.getExtensionFieldInfo x.type).wiretag).1)
        x.value (c.EncodeTag c.FieldMessage c.BytesType) opts with ⟨b₁, _ | e⟩
    · rw [hmar] at hok
      simp only at hok
      have h1 := hm _ _ hmar
      have h2 := hfield b b₁ (c.DecodeTag (c.getExtensionFieldInfo x.type).wiretag).1
      have h3 := ih (fun y hy => hsize y (List.mem_cons_of_mem _ hy)) _ hok
      rw [h3]
      simp only [List.filterMap_cons, Spec.fieldSize, hf, fieldNum, List.sum_cons]
      omega
    · rw [hmar] at hok
      simp at hok

/-- C18: with legacy support enabled, for a message whose fields all have a size
function that matches their marshal function, when `SizeField(num)` is the number
of bytes that `AppendFieldStart(num)` and `AppendFieldEnd` add and `SizeUnknown` the
number that a successful `AppendUnknown` adds, a successful `marshalMessageSet(b)`
returns a buffer of length `len(b) + sizeMessageSet`, the lengths of the two
buffers being values of `int`. -/
theorem marshalMessageSet_length_eq_size [Inhabited T] [Inhabited V] (c : Env T V O U E)
    (b out : Bytes) (p : Message T V) (opts : O)
    (hflag : c.ProtoLegacy = true) (hwf : (p.extensions.getD []).WF)
    (hsize : ∀ e ∈ p.extensions.getD [], sizeMatchesMarshal c opts e.2)
    (hfield : ∀ b₁ b₂ num, ((c.AppendFieldStart b₁ num).length : Int) - b₁.length +
      (((c.AppendFieldEnd b₂).length : Int) - b₂.length) = c.SizeField num)
    (hunk : ∀ b₁ b₂, c.AppendUnknown b₁ p.unknown = (b₂, none) →
      (b₂.length : Int) = b₁.length + c.SizeUnknown p.unknown)
    (hok : marshalMessageSet c b p opts = (p, out, none))
    (hb : (b.length : Int) < 2 ^ 63) (hout : (out.length : Int) < 2 ^ 63) :
    (out.length : Int) = b.length + (sizeMessageSet c p opts).2 := by
  have hperm := sortedFields_perm hwf
  rw [marshalMessageSet_eq_finish c b p opts hflag hwf] at hok
  rcases hloop : marshalMessageSet.loop c opts b (sortedFields (p.extensions.getD []))
    with ⟨b₁, _ | e⟩
  · rw [hloop] at hok
    simp only [marshalMessageSet.finish, Prod.mk.injEq, true_and] at hok
    have h1 := marshalMessageSet.loop_length c opts hfield _
      (fun x hx => by
        obtain ⟨e, he, rfl⟩ := List.mem_map.1 (hperm.subset hx)
        exact hsize e he) b b₁ hloop
    have h2 := hunk b₁ out hok
    rw [(hperm.filterMap (Spec.fieldSize c opts)).sum_eq] at h1
    have hspec : Spec.size c opts p = (out.length : Int) - b.length := by
      unfold Spec.size
      omega
    rw [sizeMessageSet_eq_wrapInt c p opts hflag, hspec, wrapInt_of_isInt]
    · omega
    · unfold isInt
      have := Int.natCast_nonneg out.length
      have := Int.natCast_nonneg b.length
      omega
  · rw [hloop] at hok
    simp [marshalMessageSet.finish] at hok

/-- In the example environment the size function of every extension type other
than 6 and 7 matches its marshal function. -/
theorem Demo.info_sizeMatchesMarshal (t : Nat) (v : Bytes) (h6 : t ≠ 6) (h7 : t ≠ 7) :
    sizeMatchesMarshal Demo.env () ⟨t, v⟩ := by
  refine ⟨fun v tagsize _ => tagsize + 1 + (v.length : Int), ?_, ?_⟩
  · show (if t = 6 then none else some _) = some _
    rw [if_neg h6]
  · intro b₁ b₂ h
    change (if t = 7 then (b₁ ++ [Demo.byte _], some Demo.Err.field)
      else (b₁ ++ [Demo.byte _, Demo.byte v.length] ++ v, none)) = (b₂, none) at h
    rw [if_neg h7] at h
    have hb := (Prod.mk.inj h).1
    subst hb
    simp [Demo.env]
    ring

/-- The example message with the fields 5, 2 and 9 satisfies the hypotheses of C18:
its 28 bytes are its size. -/
theorem marshalMessageSet_length_eq_size_witness :
    (([11, 16, 2, 26, 1, 20, 12, 11, 16, 5, 26, 2, 50, 51, 12, 11, 16, 9, 26, 0, 12,
        11, 16, 4, 26, 1, 77, 12] : Bytes).length : Int) =
      (([] : Bytes).length : Int) + (sizeMessageSet Demo.env Demo.msg529 ()).2 :=
  marshalMessageSet_length_eq_size Demo.env []
    [11, 16, 2, 26, 1, 20, 12, 11, 16, 5, 26, 2, 50, 51, 12, 11, 16, 9, 26, 0, 12,
      11, 16, 4, 26, 1, 77, 12] Demo.msg529 () rfl
    (by simp [Demo.msg529, Demo.ext529, Extensions.WF, isInt32])
    (by
      intro e he
      simp only [Demo.msg529, Demo.ext529, Option.getD_some, List.cons_append,
        List.nil_append, List.mem_cons, List.mem_singleton, List.not_mem_nil, or_false] at he
      rcases he with rfl | rfl | rfl <;>
        exact Demo.info_sizeMatchesMarshal _ _ (by decide) (by decide))
    (by
      intro b₁ b₂ num
      simp [Demo.env, Demo.fieldStart, Demo.fieldEnd])
    (by
      intro b₁ b₂ h
      have hf : Demo.fields 3 [34, 1, 77] = some [(4, [1, 77])] := by decide
      have hs : Demo.env.SizeUnknown Demo.msg529.unknown = 7 := by decide
      rw [hs]
      change Demo.appendUnknown b₁ [34, 1, 77] = (b₂, none) at h
      unfold Demo.appendUnknown at h
      simp only [List.length_cons, List.length_nil, Nat.zero_add, Nat.reduceAdd, hf,
        List.foldl_cons, List.foldl_nil, Prod.mk.injEq, and_true] at h
      subst h
      simp [Demo.fieldStart, Demo.fieldEnd])
    rfl (by decide) (by decide)

end Protobuf

namespace Protobuf

variable {T V O U E : Type}

namespace wire
theorem varintBytes_go (fuel v : Nat) (rest : Bytes) (hv : v < 2 * 128 ^ fuel) :
    ConsumeVarint.go (fuel + 1) (varintBytes fuel v ++ rest) =
      .ok (v, (varintBytes fuel v).length) := by
  induction fuel generalizing v with
  | zero =>
    have hv2 : v < 2 := by simpa using hv
    have hval : (Fin.ofNat v : Fin 256).val = v := by
      show v % 256 = v
      omega
    simp [varintBytes, ConsumeVarint.go, hval, hv2]
  | succ fuel ih =>
    unfold varintBytes
    by_cases h : v < 128
    · have hval : (Fin.ofNat v : Fin 256).val = v := by
        show v % 256 = v
        omega
      simp [h, ConsumeVarint.go, hval]
    · have hval : (Fin.ofNat (v % 128 + 128) : Fin 256).val = v % 128 + 128 := by
        show (v % 128 + 128) % 256 = v % 128 + 128
        omega
      have hdiv : v / 128 < 2 * 128 ^ fuel := by
        rw [pow_succ] at hv
        omega
      rw [if_neg h, List.cons_append, ConsumeVarint.go]
      simp only [Nat.add_eq_zero, one_ne_zero, and_false, if_false, hval]
      rw [if_neg (by omega), ih _ hdiv]
      simp only [List.length_cons]
      congr 2
      omega

theorem ConsumeVarint_AppendVarint (v : Nat) (rest : Bytes) (hv : v < 2 ^ 64) :
    ConsumeVarint (AppendVarint [] v ++ rest) = .ok (v, (AppendVarint [] v).length) := by
  unfold ConsumeVarint AppendVarint
  rw [Nat.mod_eq_of_lt hv, List.nil_append]
  exact varintBytes_go 9 v rest (by norm_num at hv ⊢; omega)


theorem AppendVarint_eq (b : Bytes) (v : Nat) : AppendVarint b v = b ++ AppendVarint [] v := by
  simp [AppendVarint]

theorem AppendTag_eq (b : Bytes) (num : Int) (typ : Nat) :
    AppendTag b num typ = b ++ AppendTag [] num typ := by
  unfold AppendTag
  exact AppendVarint_eq b _

theorem AppendVarint_ne_nil (v : Nat) : AppendVarint [] v ≠ [] := by
  unfold AppendVarint varintBytes
  split <;> simp

theorem ConsumeTag_start (rest : Bytes) : ConsumeTag (11 :: rest) = .ok (1, 3, 1) := rfl

theorem ConsumeTag_typeid (rest : Bytes) : ConsumeTag (16 :: rest) = .ok (2, 0, 1) := rfl

theorem ConsumeTag_message (rest : Bytes) : ConsumeTag (26 :: rest) = .ok (3, 2, 1) := rfl

theorem ConsumeTag_end (rest : Bytes) : ConsumeTag (12 :: rest) = .ok (1, 4, 1) := rfl

theorem AppendTag_start (b : Bytes) : AppendTag b 1 3 = b ++ [11] := rfl

theorem AppendTag_typeid (b : Bytes) : AppendTag b 2 0 = b ++ [16] := rfl

theorem AppendTag_message (b : Bytes) : AppendTag b 3 2 = b ++ [26] := rfl

theorem AppendTag_end (b : Bytes) : AppendTag b 1 4 = b ++ [12] := rfl

theorem EncodeTag_of_valid (num : Int) (typ : Nat) (h1 : 1 ≤ num) (h2 : num ≤ 2 ^ 31 - 1)
    (ht : typ < 8) : EncodeTag num typ = num.toNat * 8 + typ := by
  unfold EncodeTag
  omega

theorem ConsumeTag_AppendTag (num : Int) (typ : Nat) (rest : Bytes) (h1 : 1 ≤ num)
    (h2 : num ≤ 2 ^ 31 - 1) (ht : typ < 8) :
    ConsumeTag (AppendTag [] num typ ++ rest) = .ok (num, typ, (AppendTag [] num typ).length) := by
  have he := EncodeTag_of_valid num typ h1 h2 ht
  unfold ConsumeTag AppendTag
  rw [ConsumeVarint_AppendVarint _ _ (by rw [he]; omega), he]
  have hd : DecodeTag (num.toNat * 8 + typ) = (num, typ) := by
    unfold DecodeTag
    rw [if_neg (by omega)]
    have : ((num.toNat * 8 + typ) / 8 : Nat) = num.toNat := by omega
    rw [this, Int.toNat_of_nonneg (by omega)]
    congr 1
    omega
  simp only [hd]
  rw [if_neg (by omega)]

theorem ConsumeBytes_lenPrefixed (p rest : Bytes) (hp : p.length < 2 ^ 64) :
    ConsumeBytes (messageset.lenPrefixed p ++ rest) =
      .ok (p, (messageset.lenPrefixed p).length) := by
  unfold ConsumeBytes messageset.lenPrefixed
  rw [List.append_assoc, ConsumeVarint_AppendVarint _ _ hp]
  simp only [List.drop_left, List.length_append]
  rw [if_neg (by omega), List.take_left]

end wire

namespace messageset

theorem lenPrefixed_ne_nil (p : Bytes) : lenPrefixed p ≠ [] := by
  unfold lenPrefixed
  intro h
  exact wire.AppendVarint_ne_nil _ (List.append_eq_nil.1 h).1

theorem item_append (num : Int) (p tail : Bytes) :
    item num p ++ tail =
      11 :: 16 :: (wire.AppendVarint [] (num % 2 ^ 64).toNat ++
        26 :: (lenPrefixed p ++ 12 :: tail)) := by
  unfold item AppendFieldEnd AppendFieldStart
  simp only [wire.AppendTag_start, wire.AppendTag_typeid, wire.AppendTag_message,
    wire.AppendTag_end]
  rw [wire.AppendVarint_eq]
  simp

theorem ConsumeFieldValue_go_item (errorsNew : String → E) (ParseError : wire.ErrCode → E)
    (k : Nat) (num : Int) (p tail : Bytes) (h1 : 1 ≤ num) (h2 : num ≤ 2 ^ 31 - 1)
    (hp : p.length < 2 ^ 64) :
    ConsumeFieldValue.go errorsNew ParseError true (k + 3)
      (16 :: (wire.AppendVarint [] (num % 2 ^ 64).toNat ++
        26 :: (lenPrefixed p ++ 12 :: tail))) 0 none = .ok (num, lenPrefixed p, tail) := by
  have hN : (num % 2 ^ 64).toNat = num.toNat := by omega
  have hNlt : num.toNat < 2 ^ 64 := by omega
  rw [hN, ConsumeFieldValue.go, wire.ConsumeTag_typeid]
  simp only [List.drop_succ_cons, List.drop_zero]
  rw [if_neg (by decide), if_pos (by decide), wire.ConsumeVarint_AppendVarint _ _ hNlt]
  simp only [List.drop_left]
  rw [if_neg (by omega), ConsumeFieldValue.go, wire.ConsumeTag_message]
  simp only [List.drop_succ_cons, List.drop_zero]
  rw [if_neg (by decide), if_neg (by decide), if_pos (by decide),
    wire.ConsumeBytes_lenPrefixed _ _ hp]
  simp only [List.drop_left, List.take_left, if_true]
  rw [ConsumeFieldValue.go, wire.ConsumeTag_end]
  simp only [List.drop_succ_cons, List.drop_zero]
  rw [if_pos (by decide)]
  have hlen : (lenPrefixed p).length ≠ 0 := by
    intro h
    exact lenPrefixed_ne_nil p (List.length_eq_zero.1 h)
  simp only [Option.getD_some, hlen, and_false, if_false]
  rw [Int.toNat_of_nonneg (by omega)]

/-- The parser reads one item in canonical form and goes on with the bytes after
it. -/
theorem scan_go_item (errorsNew : String → E) (ParseError : wire.ErrCode → E) (fuel : Nat)
    (num : Int) (p tail : Bytes) (h1 : 1 ≤ num) (h2 : num ≤ 2 ^ 31 - 1)
    (hp : p.length < 2 ^ 64) :
    scan.go errorsNew ParseError true (fuel + 1) (item num p ++ tail) =
      ((num, lenPrefixed p) :: (scan.go errorsNew ParseError true fuel tail).1,
        (scan.go errorsNew ParseError true fuel tail).2) := by
  rw [item_append, scan.go, wire.ConsumeTag_start]
  simp only [List.drop_succ_cons, List.drop_zero]
  rw [if_neg (by decide)]
  have hitem : ConsumeFieldValue errorsNew ParseError
      (16 :: (wire.AppendVarint [] (num % 2 ^ 64).toNat ++
        26 :: (lenPrefixed p ++ 12 :: tail))) true = .ok (num, lenPrefixed p, tail) := by
    unfold ConsumeFieldValue
    have hk : ∃ k, (16 :: (wire.AppendVarint [] (num % 2 ^ 64).toNat ++
        26 :: (lenPrefixed p ++ 12 :: tail))).length + 1 = k + 3 := by
      refine ⟨(wire.AppendVarint [] (num % 2 ^ 64).toNat).length
        + (lenPrefixed p ++ 12 :: tail).length, ?_⟩
      simp only [List.length_cons, List.length_append]
      omega
    obtain ⟨k, hk⟩ := hk
    rw [hk]
    exact ConsumeFieldValue_go_item errorsNew ParseError k num p tail h1 h2 hp
  rw [hitem]
  simp only
  rw [if_neg (by omega)]

/-- The parser reads an input of items in canonical form back: it delivers the
type id and the length-prefixed payload of each item, in order, without error. -/
theorem scan_go_wireItems (errorsNew : String → E) (ParseError : wire.ErrCode → E)
    (items : List (Int × Bytes))
    (hvalid : ∀ it ∈ items, 1 ≤ it.1 ∧ it.1 ≤ 2 ^ 31 - 1 ∧ it.2.length < 2 ^ 64)
    (fuel : Nat) (hfuel : items.length ≤ fuel) :
    scan.go errorsNew ParseError true fuel (wireItems items) = (delivered items, none) := by
  induction items generalizing fuel with
  | nil =>
    cases fuel <;> rfl
  | cons it rest ih =>
    obtain ⟨f, rfl⟩ : ∃ f, fuel = f + 1 := ⟨fuel - 1, by simp at hfuel; omega⟩
    obtain ⟨h1, h2, hp⟩ := hvalid it (List.mem_cons_self _ _)
    have hrest := ih (fun x hx => hvalid x (List.mem_cons_of_mem _ hx)) f
      (by simp at hfuel; omega)
    show scan.go errorsNew ParseError true (f + 1) (item it.1 it.2 ++ wireItems rest) = _
    rw [scan_go_item errorsNew ParseError f it.1 it.2 _ h1 h2 hp, hrest]
    rfl

theorem item_ne_nil (num : Int) (p : Bytes) : item num p ≠ [] := by
  have h := item_append num p []
  rw [List.append_nil] at h
  rw [h]
  exact List.cons_ne_nil _ _

theorem length_le_wireItems (items : List (Int × Bytes)) :
    items.length ≤ (wireItems items).length := by
  induction items with
  | nil => simp
  | cons it rest ih =>
    have h : (item it.1 it.2).length ≠ 0 := fun h0 =>
      item_ne_nil it.1 it.2 (List.length_eq_zero.1 h0)
    show (it :: rest).length ≤ (item it.1 it.2 ++ wireItems rest).length
    rw [List.length_append, List.length_cons]
    omega

/-- The scan of the model reads an input of items in canonical form back. -/
theorem scan_wireItems (errorsNew : String → E) (ParseError : wire.ErrCode → E)
    (items : List (Int × Bytes))
    (hvalid : ∀ it ∈ items, 1 ≤ it.1 ∧ it.1 ≤ 2 ^ 31 - 1 ∧ it.2.length < 2 ^ 64) :
    scan errorsNew ParseError (wireItems items) true = (delivered items, none) :=
  scan_go_wireItems errorsNew ParseError items hvalid _
    (Nat.le_succ_of_le (length_le_wireItems items))

/-- The envelope of an unknown field on a buffer is the buffer followed by the item
in canonical form. -/
theorem item_on_buffer (b : Bytes) (num : Int) (p : Bytes) :
    AppendFieldEnd (wire.AppendTag (AppendFieldStart b num) 3 2 ++ lenPrefixed p) =
      b ++ item num p := by
  unfold item AppendFieldEnd AppendFieldStart
  simp only [wire.AppendTag_start, wire.AppendTag_typeid, wire.AppendTag_message,
    wire.AppendTag_end, wire.AppendVarint, List.append_assoc, List.nil_append]

/-- The fields that the callback of `unmarshalMessageSet` puts on the tail for
delivered items: the tag of the type id as a length-delimited field, then the
length-prefixed payload. -/
theorem tail_cons (num : Int) (p : Bytes) (rest : List (Int × Bytes)) :
    ((delivered ((num, p) :: rest)).map fun it => wire.AppendTag [] it.1 2 ++ it.2).flatten =
      wire.AppendTag [] num 2 ++ (lenPrefixed p ++
        ((delivered rest).map fun it => wire.AppendTag [] it.1 2 ++ it.2).flatten) := by
  simp [delivered]

theorem wire.AppendTag_ne_nil (num : Int) (typ : Nat) : wire.AppendTag [] num typ ≠ [] :=
  wire.AppendVarint_ne_nil _

/-- The function `AppendUnknown` of the model re-wraps one stored field into the item
in canonical form and goes on with the rest of the tail. -/
theorem AppendUnknown_go_field (errorsNew : String → E) (fuel : Nat) (b : Bytes) (num : Int)
    (p rest : Bytes) (h1 : 1 ≤ num) (h2 : num ≤ 2 ^ 31 - 1) (hp : p.length < 2 ^ 64) :
    AppendUnknown.go errorsNew (fuel + 1) b
        (wire.AppendTag [] num 2 ++ (lenPrefixed p ++ rest)) =
      AppendUnknown.go errorsNew fuel (b ++ item num p) rest := by
  have hne : wire.AppendTag [] num 2 ++ (lenPrefixed p ++ rest) ≠ [] := by
    intro h
    exact wire.AppendTag_ne_nil num 2 (List.append_eq_nil.1 h).1
  obtain ⟨c, cs, hcs⟩ := List.exists_cons_of_ne_nil hne
  rw [hcs, AppendUnknown.go, ← hcs, wire.ConsumeTag_AppendTag num 2 _ h1 h2 (by decide)]
  simp only [List.drop_left]
  rw [if_neg (by decide), wire.ConsumeBytes_lenPrefixed _ _ hp]
  simp only [List.drop_left, List.take_left]
  rw [item_on_buffer]

/-- The function `AppendUnknown` of the model turns the tail left by items in
canonical form back into these items. -/
theorem AppendUnknown_go_tail (errorsNew : String → E) (items : List (Int × Bytes))
    (hvalid : ∀ it ∈ items, 1 ≤ it.1 ∧ it.1 ≤ 2 ^ 31 - 1 ∧ it.2.length < 2 ^ 64)
    (fuel : Nat) (hfuel : items.length ≤ fuel) (b : Bytes) :
    AppendUnknown.go errorsNew fuel b
        ((delivered items).map fun it => wire.AppendTag [] it.1 2 ++ it.2).flatten =
      (b ++ wireItems items, none) := by
  induction items generalizing fuel b with
  | nil =>
    cases fuel <;> simp [delivered, wireItems, AppendUnknown.go]
  | cons it rest ih =>
    obtain ⟨f, rfl⟩ : ∃ f, fuel = f + 1 := ⟨fuel - 1, by simp at hfuel; omega⟩
    obtain ⟨h1, h2, hp⟩ := hvalid it (List.mem_cons_self _ _)
    obtain ⟨num, p⟩ := it
    rw [tail_cons, AppendUnknown_go_field errorsNew f b num p _ h1 h2 hp,
      ih (fun x hx => hvalid x (List.mem_cons_of_mem _ hx)) f (by simp at hfuel; omega)]
    simp [wireItems]

theorem length_le_tail (items : List (Int × Bytes)) :
    items.length ≤
      (((delivered items).map fun it => wire.AppendTag [] it.1 2 ++ it.2).flatten).length := by
  induction items with
  | nil => simp [delivered]
  | cons it rest ih =>
    obtain ⟨num, p⟩ := it
    have h : (wire.AppendTag [] num 2).length ≠ 0 := fun h0 =>
      wire.AppendTag_ne_nil num 2 (List.length_eq_zero.1 h0)
    rw [tail_cons, List.length_append, List.length_append, List.length_cons]
    omega

/-- The function `AppendUnknown` of the model turns the tail left by items in
canonical form back into these items, on any buffer. -/
theorem AppendUnknown_tail (errorsNew : String → E) (items : List (Int × Bytes))
    (hvalid : ∀ it ∈ items, 1 ≤ it.1 ∧ it.1 ≤ 2 ^ 31 - 1 ∧ it.2.length < 2 ^ 64)
    (b : Bytes) :
    AppendUnknown errorsNew b
        ((delivered items).map fun it => wire.AppendTag [] it.1 2 ++ it.2).flatten =
      (b ++ wireItems items, none) :=
  AppendUnknown_go_tail errorsNew items hvalid _ (Nat.le_succ_of_le (length_le_tail items)) b

end messageset

/-- The unknown items among the delivered ones are the delivered forms of the unknown
items. -/
theorem messageset.delivered_filter (reg : Int → Bool) (items : List (Int × Bytes)) :
    (messageset.delivered items).filter (fun it => !reg it.1) =
      messageset.delivered (items.filter fun it => !reg it.1) := by
  induction items with
  | nil => rfl
  | cons it rest ih =>
    simp only [messageset.delivered, List.map_cons, List.filter_cons] at ih ⊢
    cases reg it.1 <;> simp [ih]

/-- C4, amended: unknown items in canonical form survive a decode and a re-encode
byte for byte. With legacy support enabled and the wire and message-set functions
of the model, an input made of items in canonical form (start marker, type id, one
message sub-field, end marker, in this order, with the shortest varints), each of
which the decoder either decodes or reports as unknown, leaving the store as it
is, is decoded into an empty message without error; re-encoding the message gives
the envelopes of the decoded fields followed by the bytes that the unknown items
had in the input, in their order, and exactly the buffer followed by the input
when no item is known. -/
theorem unknown_items_roundtrip [Inhabited T] [Inhabited V] [DecidableEq E]
    (base : Env T V O U E) (ParseError : wire.ErrCode → E) (b : Bytes) (uopts : U)
    (mopts : O) (items : List (Int × Bytes)) (reg : Int → Bool)
    (hflag : base.ProtoLegacy = true)
    (hvalid : ∀ it ∈ items, 1 ≤ it.1 ∧ it.1 ≤ 2 ^ 31 - 1 ∧ it.2.length < 2 ^ 64)
    (hunk : ∀ it ∈ items, reg it.1 = false → ∀ ext,
      base.unmarshalExtension (messageset.lenPrefixed it.2) it.1 2 ext uopts =
        (ext, some base.errUnknown))
    (hrec : ∀ it ∈ items, reg it.1 = true → ∀ ext,
      (base.unmarshalExtension (messageset.lenPrefixed it.2) it.1 2 ext uopts).2 = none)
    (hwf : ((unmarshalMessageSet (messageset.env base ParseError)
      (messageset.wireItems items) ⟨none, []⟩ uopts).1.extensions.getD []).WF)
    (hmar : ∀ e ∈ (unmarshalMessageSet (messageset.env base ParseError)
        (messageset.wireItems items) ⟨none, []⟩ uopts).1.extensions.getD [],
      marshalSucceeds (messageset.env base ParseError) mopts e.2) :
    (unmarshalMessageSet (messageset.env base ParseError) (messageset.wireItems items)
      ⟨none, []⟩ uopts).2 = (((messageset.wireItems items).length : Int), none) ∧
    (marshalMessageSet (messageset.env base ParseError) b
        (unmarshalMessageSet (messageset.env base ParseError) (messageset.wireItems items)
          ⟨none, []⟩ uopts).1 mopts).2 =
      ((sortedFields ((unmarshalMessageSet (messageset.env base ParseError)
          (messageset.wireItems items) ⟨none, []⟩ uopts).1.extensions.getD [])).foldl
          (Spec.envelope (messageset.env base ParseError) mopts) b
        ++ messageset.wireItems (items.filter fun it => !reg it.1), none) ∧
    ((∀ it ∈ items, reg it.1 = false) →
      (marshalMessageSet (messageset.env base ParseError) b
          (unmarshalMessageSet (messageset.env base ParseError) (messageset.wireItems items)
            ⟨none, []⟩ uopts).1 mopts).2 = (b ++ messageset.wireItems items, none)) := by
  have hfilter : ∀ it ∈ items.filter (fun it => !reg it.1),
      1 ≤ it.1 ∧ it.1 ≤ 2 ^ 31 - 1 ∧ it.2.length < 2 ^ 64 :=
    fun it hit => hvalid it (List.mem_of_mem_filter hit)
  have hwrap : ∀ b', (messageset.env base ParseError).AppendUnknown b'
      (((messageset.delivered items).filter fun it => !reg it.1).foldl
        (fun u it => (messageset.env base ParseError).AppendTag u it.1
          (messageset.env base ParseError).BytesType ++ it.2) []) =
      (b' ++ messageset.wireItems (items.filter fun it => !reg it.1), none) := by
    intro b'
    rw [foldl_appendTag (messageset.env base ParseError)
      (fun u n t => wire.AppendTag_eq u n t), List.nil_append, messageset.delivered_filter]
    exact messageset.AppendUnknown_tail base.errorsNew _ hfilter b'
  have h := roundtrip_of_appendUnknown (messageset.env base ParseError)
    (messageset.wireItems items) b (messageset.wireItems (items.filter fun it => !reg it.1))
    uopts mopts (messageset.delivered items) reg hflag
    (messageset.scan_wireItems base.errorsNew ParseError items hvalid)
    (by
      intro it hit hreg ext
      obtain ⟨it₀, h₀, rfl⟩ := List.mem_map.1 hit
      exact hunk it₀ h₀ hreg ext)
    (by
      intro it hit hreg ext
      obtain ⟨it₀, h₀, rfl⟩ := List.mem_map.1 hit
      exact hrec it₀ h₀ hreg ext)
    hwrap hwf hmar
  refine ⟨h.1, h.2.2.1, ?_⟩
  intro hall
  have hall' : ∀ it ∈ messageset.delivered items, reg it.1 = false := by
    intro it hit
    obtain ⟨it₀, h₀, rfl⟩ := List.mem_map.1 hit
    exact hall it₀ h₀
  rw [h.2.2.2 hall']
  have hf : (items.filter fun it => !reg it.1) = items := by
    apply List.filter_eq_self.2
    intro it hit
    rw [hall it hit]
    rfl
  rw [hf]

/-- The example input of the items 2, 4 and 12 in canonical form satisfies the
hypotheses of C4 as amended: the item 2 is decoded, and the bytes of the items 4
and 12 come back as they were in the input. -/
theorem unknown_items_roundtrip_witness :
    (unmarshalMessageSet Demo.wireEnv (messageset.wireItems Demo.payloads2412)
      ⟨none, []⟩ ()).2 = (((messageset.wireItems Demo.payloads2412).length : Int), none) ∧
    (marshalMessageSet Demo.wireEnv []
        (unmarshalMessageSet Demo.wireEnv (messageset.wireItems Demo.payloads2412)
          ⟨none, []⟩ ()).1 ()).2 =
      ((sortedFields ((unmarshalMessageSet Demo.wireEnv
          (messageset.wireItems Demo.payloads2412) ⟨none, []⟩ ()).1.extensions.getD [])).foldl
          (Spec.envelope Demo.wireEnv ()) []
        ++ messageset.wireItems
          (Demo.payloads2412.filter fun it => !Demo.registered it.1), none) ∧
    ((∀ it ∈ Demo.payloads2412, Demo.registered it.1 = false) →
      (marshalMessageSet Demo.wireEnv []
          (unmarshalMessageSet Demo.wireEnv (messageset.wireItems Demo.payloads2412)
            ⟨none, []⟩ ()).1 ()).2 = ([] ++ messageset.wireItems Demo.payloads2412, none)) :=
  unknown_items_roundtrip Demo.env (fun _ => Demo.Err.malformed) [] () ()
    Demo.payloads2412 Demo.registered rfl (by decide)
    (by
      intro it hit hreg ext
      simp only [Demo.payloads2412, List.mem_cons, List.mem_singleton, List.not_mem_nil,
        or_false] at hit
      rcases hit with rfl | rfl | rfl
      · exact absurd hreg (by decide)
      · rfl
      · rfl)
    (by
      intro it hit hreg ext
      simp only [Demo.payloads2412, List.mem_cons, List.mem_singleton, List.not_mem_nil,
        or_false] at hit
      rcases hit with rfl | rfl | rfl
      · rfl
      · exact absurd hreg (by decide)
      · exact absurd hreg (by decide))
    (by
      have hs : (unmarshalMessageSet Demo.wireEnv (messageset.wireItems Demo.payloads2412)
          ⟨none, []⟩ ()).1.extensions = some [(2, ⟨2, [20]⟩)] := rfl
      show ((unmarshalMessageSet Demo.wireEnv (messageset.wireItems Demo.payloads2412)
          ⟨none, []⟩ ()).1.extensions.getD []).WF
      rw [hs]
      simp [Extensions.WF, isInt32])
    (by
      have hs : (unmarshalMessageSet Demo.wireEnv (messageset.wireItems Demo.payloads2412)
          ⟨none, []⟩ ()).1.extensions = some [(2, ⟨2, [20]⟩)] := rfl
      show ∀ e ∈ (unmarshalMessageSet Demo.wireEnv (messageset.wireItems Demo.payloads2412)
          ⟨none, []⟩ ()).1.extensions.getD [], marshalSucceeds Demo.wireEnv () e.2
      rw [hs]
      intro e he b
      simp only [Option.getD_some, List.mem_singleton] at he
      subst he
      rfl)

/-- The bytes of the example: the input of the witness and what its decode and
re-encode give. -/
theorem Demo.roundtrip_payloads2412 :
    messageset.wireItems Demo.payloads2412 =
      [11, 16, 2, 26, 1, 20, 12, 11, 16, 4, 26, 1, 77, 12, 11, 16, 12, 26, 2, 1, 2, 12] ∧
    (marshalMessageSet Demo.wireEnv []
        (unmarshalMessageSet Demo.wireEnv (messageset.wireItems Demo.payloads2412)
          ⟨none, []⟩ ()).1 ()).2 = (messageset.wireItems Demo.payloads2412, none) := by
  decide

/-- The claim C4 as it stands fails on an item that is not in canonical form. The
input is one item of type id 4, unknown to the decoder, whose message sub-field
comes before its type id: the parser delivers it as it delivers the canonical
item, the tail keeps the type id and the payload only, and the re-encoding gives
the canonical item, not the bytes of the input. -/
theorem unknown_items_roundtrip_counterexample :
    Demo.wireEnv.scan Demo.inputSwapped true = ([(4, [1, 77])], none) ∧
    Demo.wireEnv.unmarshalExtension [1, 77] 4 Demo.wireEnv.BytesType [] () =
      ([], some Demo.wireEnv.errUnknown) ∧
    unmarshalMessageSet Demo.wireEnv Demo.inputSwapped ⟨none, []⟩ () =
      (⟨some [], [34, 1, 77]⟩, 7, none) ∧
    (marshalMessageSet Demo.wireEnv []
        (unmarshalMessageSet Demo.wireEnv Demo.inputSwapped ⟨none, []⟩ ()).1 ()).2 =
      ([11, 16, 4, 26, 1, 77, 12], none) ∧
    (marshalMessageSet Demo.wireEnv []
        (unmarshalMessageSet Demo.wireEnv Demo.inputSwapped ⟨none, []⟩ ()).1 ()).2 ≠
      (Demo.inputSwapped, none) := by
  refine ⟨rfl, rfl, rfl, rfl, ?_⟩
  decide

end Protobuf
